import Mathlib

/-!
Verification of `zombiezen.com/go/bytesreplacer` (replace.go).

Bytes are modelled as natural numbers (a Go `byte` is a value `< 256`) and
byte slices as `List Nat`.  Go's mutable trie is embedded as a value-passing
inductive; loops whose index does not structurally decrease are written with
an explicit fuel argument, and every wrapper supplies fuel that provably
suffices, so all definitions compute by `rfl`/`decide`.
Sinks (`io.Writer`) are modelled as state-passing functions
`σ → List Nat → Nat × Option Nat × σ` returning the reported byte count, an
optional error code, and the next sink state.
-/

set_option maxHeartbeats 1000000

/-- Byte strings: Go `[]byte` / `string` as a list of byte values. -/
abbrev Bytes := List Nat

/-- `bytes.HasPrefix s p`: does `s` start with `p`?  Here `hasPref p s` means
`p` is a prefix of `s`. -/
def hasPref : Bytes → Bytes → Bool
  | [], _ => true
  | _ :: _, [] => false
  | p :: ps, b :: bs => p == b && hasPref ps bs

/-- The keys (`old` strings) of a flat `oldnew` argument list: the entries at
even positions, as iterated by `for i := 0; i < len(oldnew); i += 2`. -/
def oldsOf : List Bytes → List Bytes
  | old :: _ :: rest => old :: oldsOf rest
  | _ => []

/-- The `(old, new)` pairs of a flat `oldnew` argument list. -/
def pairsOf : List Bytes → List (Bytes × Bytes)
  | old :: new :: rest => (old, new) :: pairsOf rest
  | _ => []

/-- The `(old, new, priority)` triples of a flat `oldnew` list, where the pair
starting at index `i` gets priority `len(oldnew) - i` exactly as in
`makeGenericReplacer` (the suffix starting at the pair has length
`rest.length + 2 = len(oldnew) - i`). -/
def pairsP : List Bytes → List (Bytes × Bytes × Nat)
  | old :: new :: rest => (old, new, rest.length + 2) :: pairsP rest
  | _ => []

/-- First pass of `makeGenericReplacer`: byte `b` is marked (`mapping[b] = 1`)
iff it occurs in some `old` key. -/
def usedByte (oldnew : List Bytes) (b : Nat) : Bool :=
  (oldsOf oldnew).any (fun k => k.contains b)

/-- `tableSize`: the number of byte values marked by the first pass. -/
def tableSizeOf (oldnew : List Bytes) : Nat :=
  ((List.range 256).filter (fun b => usedByte oldnew b)).length

/-- Second pass of `makeGenericReplacer`: a marked byte gets the next dense
index (so byte `b` gets the number of marked bytes below `b`), an unmarked
byte gets `byte(tableSize)` (hence the `% 256` for the byte conversion). -/
def mappingOf (oldnew : List Bytes) (b : Nat) : Nat :=
  if usedByte oldnew b then ((List.range b).filter (fun i => usedByte oldnew i)).length
  else tableSizeOf oldnew % 256

/-- `trieNode`: `value`, `priority`, `prefix` (named `pre`: `prefix` is a Lean
keyword), `next`, `table`.  Nil pointers / nil slices become `none`. -/
inductive TrieNode : Type where
  | mk (value : Bytes) (priority : Nat) (pre : Bytes)
       (next : Option TrieNode) (table : Option (List (Option TrieNode)))

def TrieNode.value : TrieNode → Bytes | .mk v _ _ _ _ => v
def TrieNode.priority : TrieNode → Nat | .mk _ p _ _ _ => p
def TrieNode.pre : TrieNode → Bytes | .mk _ _ q _ _ => q
def TrieNode.next : TrieNode → Option TrieNode | .mk _ _ _ nx _ => nx
def TrieNode.table : TrieNode → Option (List (Option TrieNode)) | .mk _ _ _ _ t => t

/-- `new(trieNode)`: the zero node. -/
def emptyNode : TrieNode := .mk [] 0 [] none none

/-- Length of the longest common prefix of two byte strings (the loop
computing `n` in `trieNode.add`). -/
def commonLen : Bytes → Bytes → Nat
  | a :: as', b :: bs' => if a == b then commonLen as' bs' + 1 else 0
  | _, _ => 0

/-- `trieNode.add`, with fuel.  Every recursive call strictly decreases the
key length, so fuel `key.length + 1` (supplied by `TrieNode.add`) always
suffices; the fuel-0 branch is unreachable from the wrapper.
In Go a nil `t.next` in the descend branch would be a nil dereference; it is
unreachable (a node with a nonempty prefix always has a next node), and the
embedding uses `Option.getD emptyNode` there. -/
def addF (mp : Nat → Nat) (ts : Nat) : Nat → TrieNode → Bytes → Bytes → Nat → TrieNode
  | 0, t, _, _, _ => t
  | _ + 1, t, [], val, prio =>
      if t.priority = 0 then .mk val prio t.pre t.next t.table else t
  | fuel + 1, t, b :: ks, val, prio =>
      if t.pre ≠ [] then
        let n := commonLen t.pre (b :: ks)
        if n = t.pre.length then
          .mk t.value t.priority t.pre
            (some (addF mp ts fuel (t.next.getD emptyNode) ((b :: ks).drop n) val prio))
            t.table
        else if n = 0 then
          let prefixNode : Option TrieNode :=
            if t.pre.length = 1 then t.next
            else some (.mk [] 0 (t.pre.drop 1) t.next none)
          let tbl2 : List (Option TrieNode) :=
            ((List.replicate ts none).set (mp (t.pre.headD 0)) prefixNode).set
              (mp b) (some (addF mp ts fuel emptyNode ks val prio))
          .mk t.value t.priority [] none (some tbl2)
        else
          .mk t.value t.priority (t.pre.take n)
            (some (addF mp ts fuel (.mk [] 0 (t.pre.drop n) t.next none) ((b :: ks).drop n) val prio))
            t.table
      else
        match t.table with
        | some l =>
            let m := mp b
            let child := (l.getD m none).getD emptyNode
            .mk t.value t.priority t.pre t.next
              (some (l.set m (some (addF mp ts fuel child ks val prio))))
        | none =>
            .mk t.value t.priority (b :: ks) (some (addF mp ts fuel emptyNode [] val prio)) t.table

/-- `trieNode.add` with sufficient fuel. -/
def TrieNode.add (mp : Nat → Nat) (ts : Nat) (t : TrieNode) (key val : Bytes) (prio : Nat) :
    TrieNode :=
  addF mp ts (key.length + 1) t key val prio

/-- The second loop of `makeGenericReplacer`: insert each pair in declaration
order, the pair whose suffix is `old :: new :: rest` with priority
`rest.length + 2 = len(oldnew) - i`. -/
def addPairs (mp : Nat → Nat) (ts : Nat) : TrieNode → List Bytes → TrieNode
  | t, old :: new :: rest => addPairs mp ts (t.add mp ts old new (rest.length + 2)) rest
  | t, _ => t

/-- `genericReplacer`. -/
structure GenericReplacer where
  root : TrieNode
  tableSize : Nat
  mapping : Nat → Nat

/-- `makeGenericReplacer`: build the byte-class map, give the root a lookup
table of `tableSize` slots, then add every pair. -/
def makeGenericReplacer (oldnew : List Bytes) : GenericReplacer :=
  { root := addPairs (mappingOf oldnew) (tableSizeOf oldnew)
      (.mk [] 0 [] none (some (List.replicate (tableSizeOf oldnew) none))) oldnew
    tableSize := tableSizeOf oldnew
    mapping := mappingOf oldnew }

/-- `genericReplacer.lookup`, with fuel.  Arguments: fuel, current node,
remaining input, bytes consumed `n`, best `(val, keylen, found)` so far, best
priority so far, whether the current node is the root, `ignoreRoot`.  Each
iteration consumes at least one input byte, so fuel `s.length + 1` suffices. -/
def lookupF (g : GenericReplacer) :
    Nat → Option TrieNode → Bytes → Nat → (Bytes × Nat × Bool) → Nat → Bool → Bool →
    Bytes × Nat × Bool
  | 0, _, _, _, best, _, _, _ => best
  | _ + 1, none, _, _, best, _, _, _ => best
  | fuel + 1, some nd, s, n, best, bp, atRoot, ignoreRoot =>
    let best' := if bp < nd.priority ∧ ¬(ignoreRoot = true ∧ atRoot = true) then
        (nd.value, n, true) else best
    let bp' := if bp < nd.priority ∧ ¬(ignoreRoot = true ∧ atRoot = true) then
        nd.priority else bp
    match s with
    | [] => best'
    | b :: s' =>
      match nd.table with
      | some l =>
          if g.mapping b = g.tableSize then best'
          else lookupF g fuel (l.getD (g.mapping b) none) s' (n + 1) best' bp' false ignoreRoot
      | none =>
          if nd.pre ≠ [] ∧ hasPref nd.pre (b :: s') = true then
            lookupF g fuel nd.next ((b :: s').drop nd.pre.length) (n + nd.pre.length)
              best' bp' false ignoreRoot
          else best'

/-- `genericReplacer.lookup` with sufficient fuel. -/
def lookup (g : GenericReplacer) (s : Bytes) (ignoreRoot : Bool) : Bytes × Nat × Bool :=
  lookupF g (s.length + 1) (some g.root) s 0 ([], 0, false) 0 true ignoreRoot

/-- The fast-path test shared by `genericReplacer.Write` and
`genericReplacer.hasMatch`: `s[i]` cannot start any pattern (the root is not
itself a match endpoint, and its table has no child for `s[i]`). -/
def fastSkip (g : GenericReplacer) (s : Bytes) (i : Nat) : Bool :=
  decide (i ≠ s.length) && decide (g.root.priority = 0) &&
  (decide (g.mapping (s.getD i 0) = g.tableSize) ||
   ((g.root.table.getD []).getD (g.mapping (s.getD i 0)) none).isNone)

/-- `genericReplacer.Write`, with fuel and a ghost trace.  State: sink state,
scan position `i`, `last`, byte count `n`, `prevMatchEmpty`.  The last
component of the result is a ghost trace of the accepted matches
`(position, replacement, keylen)`; it does not influence the computation.
The loop makes at most `2*len(s)+3` iterations (each one either advances `i`
or sets `prevMatchEmpty` which forces the next one to advance), so the fuel
`2*len(s)+4` supplied by the wrappers suffices. -/
def gWriteLoop {σ : Type} (g : GenericReplacer) (wr : σ → Bytes → Nat × Option Nat × σ)
    (s : Bytes) :
    Nat → σ → Nat → Nat → Nat → Bool → List (Nat × Bytes × Nat) →
    Nat × Option Nat × σ × List (Nat × Bytes × Nat)
  | 0, st, _, _, n, _, tr => (n, none, st, tr)
  | fuel + 1, st, i, last, n, pme, tr =>
    if i ≤ s.length then
      if fastSkip g s i then
        gWriteLoop g wr s fuel st (i + 1) last n pme tr
      else
        let res := lookup g (s.drop i) pme
        let pme' : Bool := res.2.2 && res.2.1 == 0
        if res.2.2 then
          let w1 := wr st ((s.drop last).take (i - last))
          match w1.2.1 with
          | some e => (n + w1.1, some e, w1.2.2, tr)
          | none =>
            let w2 := wr w1.2.2 res.1
            match w2.2.1 with
            | some e => (n + w1.1 + w2.1, some e, w2.2.2, tr)
            | none =>
              gWriteLoop g wr s fuel w2.2.2 (i + res.2.1) (i + res.2.1) (n + w1.1 + w2.1) pme'
                (tr ++ [(i, res.1, res.2.1)])
        else gWriteLoop g wr s fuel st (i + 1) last n pme' tr
    else
      if last ≠ s.length then
        let w := wr st (s.drop last)
        (n + w.1, w.2.1, w.2.2, tr)
      else (n, none, st, tr)

/-- `genericReplacer.Write` with sufficient fuel, keeping the ghost trace. -/
def gWriteT {σ : Type} (g : GenericReplacer) (wr : σ → Bytes → Nat × Option Nat × σ)
    (st : σ) (s : Bytes) : Nat × Option Nat × σ × List (Nat × Bytes × Nat) :=
  gWriteLoop g wr s (2 * s.length + 4) st 0 0 0 false []

/-- `genericReplacer.Write`: the visible result `(n, err, sink state)`. -/
def gWrite {σ : Type} (g : GenericReplacer) (wr : σ → Bytes → Nat × Option Nat × σ)
    (st : σ) (s : Bytes) : Nat × Option Nat × σ :=
  ((gWriteT g wr st s).1, (gWriteT g wr st s).2.1, (gWriteT g wr st s).2.2.1)

/-- The `appendSliceWriter` sink: an error-free in-memory buffer. -/
def bufWr : Bytes → Bytes → Nat × Option Nat × Bytes :=
  fun st p => (p.length, none, st ++ p)

/-- The ghost trace of accepted matches of a buffered `Write` run. -/
def gWriteTrace (g : GenericReplacer) (s : Bytes) : List (Nat × Bytes × Nat) :=
  (gWriteT g bufWr ([] : Bytes) s).2.2.2

/-- `genericReplacer.hasMatch`, with fuel; `i` increases every iteration, so
fuel `s.length + 2` suffices. -/
def hasMatchF (g : GenericReplacer) (s : Bytes) : Nat → Nat → Bool
  | 0, _ => false
  | fuel + 1, i =>
    if i ≤ s.length then
      if fastSkip g s i then
        hasMatchF g s fuel (i + 1)
      else if (lookup g (s.drop i) false).2.2 then true
      else hasMatchF g s fuel (i + 1)
    else false

/-- `genericReplacer.hasMatch` with sufficient fuel. -/
def hasMatch (g : GenericReplacer) (s : Bytes) : Bool :=
  hasMatchF g s (s.length + 2) 0

/-- `genericReplacer.Replace`: return `s` unchanged when nothing matches,
otherwise stream into an `appendSliceWriter` and return the buffer. -/
def gReplace (g : GenericReplacer) (s : Bytes) : Bytes :=
  if hasMatch g s then (gWrite g bufWr ([] : Bytes) s).2.2 else s

/-- The `byteReplacer` table: identity on all 256 bytes, then each pair
applied in reverse declaration order (`for i := len(oldnew)-2; i >= 0; i -= 2`)
so that the first declared pair for a byte wins. -/
def byteTableOf (oldnew : List Bytes) : List Nat :=
  ((pairsOf oldnew).reverse).foldl
    (fun r p => r.set (p.1.getD 0 0) (p.2.getD 0 0)) (List.range 256)

/-- `byteReplacer.Replace` as a value: every byte replaced through the table
(the Go code performs this in place on the argument slice). -/
def byteReplace (tbl : List Nat) (s : Bytes) : Bytes :=
  s.map (fun b => tbl.getD b 0)

/-- `byteReplacer.Write`, with fuel: write chunks of `bufsize` bytes, each
chunk replaced through the table; stop at the first sink error.  Each
iteration consumes at least one byte, so fuel `s.length + 1` suffices. -/
def byteWriteLoop {σ : Type} (tbl : List Nat) (wr : σ → Bytes → Nat × Option Nat × σ) :
    Nat → σ → Bytes → Nat → Nat → Nat × Option Nat × σ
  | 0, st, _, _, n => (n, none, st)
  | fuel + 1, st, s, bufsize, n =>
    if s.isEmpty then (n, none, st)
    else
      let ncopy := min bufsize s.length
      let w := wr st (byteReplace tbl (s.take ncopy))
      match w.2.1 with
      | some e => (n + w.1, some e, w.2.2)
      | none => byteWriteLoop tbl wr fuel w.2.2 (s.drop ncopy) bufsize (n + w.1)

/-- `byteReplacer.Write` with sufficient fuel; `bufsize = min (32<<10) len(s)`. -/
def byteWrite {σ : Type} (tbl : List Nat) (wr : σ → Bytes → Nat × Option Nat × σ)
    (st : σ) (s : Bytes) : Nat × Option Nat × σ :=
  byteWriteLoop tbl wr (s.length + 1) st s (min (32 * 1024) s.length) 0

/-- The two implementations of the `replacer` interface. -/
inductive Repl : Type where
  | generic (g : GenericReplacer)
  | byteR (tbl : List Nat)

/-- `New`: `none` models the `panic` on an odd argument count; the byte
replacer is selected exactly when every `old` and every `new` is one byte. -/
def New (oldnew : List Bytes) : Option Repl :=
  if oldnew.length % 2 = 1 then none
  else if (pairsOf oldnew).all (fun p => p.1.length = 1) then
    if (pairsOf oldnew).all (fun p => p.2.length = 1) then some (.byteR (byteTableOf oldnew))
    else some (.generic (makeGenericReplacer oldnew))
  else some (.generic (makeGenericReplacer oldnew))

/-- `Replacer.Replace` dispatch. -/
def Repl.Replace : Repl → Bytes → Bytes
  | .generic g, s => gReplace g s
  | .byteR tbl, s => byteReplace tbl s

/-- `Replacer.Write` dispatch. -/
def Repl.Write {σ : Type} : Repl → (σ → Bytes → Nat × Option Nat × σ) → σ → Bytes →
    Nat × Option Nat × σ
  | .generic g, wr, st, s => gWrite g wr st s
  | .byteR tbl, wr, st, s => byteWrite tbl wr st s

/-- `New` followed by `Replace`. -/
def ReplaceTop (oldnew : List Bytes) (s : Bytes) : Option Bytes :=
  (New oldnew).map (fun r => r.Replace s)

/-! ### Specification-side definitions

These follow the wording of the specification (earliest-declared pattern that
is a prefix of the remaining input, etc.) and are compared against the
source-level engine above. -/

/-- A pattern is eligible at a scan position when it is a prefix of the
remaining input; with `ignoreRoot` set, the empty pattern is not eligible. -/
def specPred (s : Bytes) (ignoreRoot : Bool) (old : Bytes) : Bool :=
  hasPref old s && (!ignoreRoot || !old.isEmpty)

/-- The first declared `(old, new, priority)` triple whose `old` is a prefix
of `s`; with `ignoreRoot` set, empty patterns are skipped.  This is the
spec's "among all patterns that are prefixes of the remaining input at this
position, the one declared earliest wins". -/
def specMatchT (oldnew : List Bytes) (s : Bytes) (ignoreRoot : Bool) :
    Option (Bytes × Bytes × Nat) :=
  (pairsP oldnew).find? (fun t => specPred s ignoreRoot t.1)

/-- The spec-level best match: replacement and consumed length. -/
def specMatch (oldnew : List Bytes) (s : Bytes) (ignoreRoot : Bool) : Option (Bytes × Nat) :=
  (specMatchT oldnew s ignoreRoot).map (fun t => (t.2.1, t.1.length))

/-- View an optional spec match as a `lookup` result triple. -/
def toTriple : Option (Bytes × Nat) → Bytes × Nat × Bool
  | some (v, k) => (v, k, true)
  | none => ([], 0, false)

/-- The first declared binding for an exact key: value and priority of the
first pair whose `old` equals `key`. -/
def firstB (oldnew : List Bytes) (key : Bytes) : Option (Bytes × Nat) :=
  ((pairsP oldnew).find? (fun t => t.1 == key)).map (fun t => (t.2.1, t.2.2))

/-! ### List and prefix utilities -/

theorem getD_set_self {α : Type} : ∀ (l : List α) (n : Nat) (x d : α), n < l.length →
    (l.set n x).getD n d = x := by
  intro l
  induction l with
  | nil => intro n x d h; simp at h
  | cons a t ih =>
    intro n x d h
    cases n with
    | zero => simp [List.getD]
    | succ m =>
      simp only [List.set, List.getD, List.getElem?_cons_succ]
      exact ih m x d (by simpa using h)

theorem getD_set_ne {α : Type} : ∀ (l : List α) (m n : Nat) (x d : α), m ≠ n →
    (l.set m x).getD n d = l.getD n d := by
  intro l
  induction l with
  | nil => intro m n x d _; simp
  | cons a t ih =>
    intro m n x d h
    cases m with
    | zero =>
      cases n with
      | zero => exact absurd rfl h
      | succ j => simp [List.getD]
    | succ i =>
      cases n with
      | zero => simp [List.getD]
      | succ j =>
        simp only [List.set, List.getD, List.getElem?_cons_succ]
        exact ih i j x d (fun hh => h (by omega))

theorem getD_replicate {α : Type} : ∀ (k i : Nat) (d : α), (List.replicate k d).getD i d = d := by
  intro k
  induction k with
  | zero => intro i d; simp [List.getD]
  | succ m ih =>
    intro i d
    cases i with
    | zero => simp [List.replicate, List.getD]
    | succ j => simp [List.replicate, List.getD, ih j d]

theorem map_self {α : Type} (f : α → α) : ∀ (l : List α), (∀ x ∈ l, f x = x) → l.map f = l := by
  intro l
  induction l with
  | nil => intro _; rfl
  | cons a t ih =>
    intro h
    simp only [List.map_cons]
    rw [h a (by simp), ih (fun x hx => h x (by simp [hx]))]

theorem hasPref_refl : ∀ (p : Bytes), hasPref p p = true := by
  intro p
  induction p with
  | nil => rfl
  | cons a t ih => simp [hasPref, ih]

theorem hasPref_iff_take : ∀ (p s : Bytes), hasPref p s = true ↔
    (p.length ≤ s.length ∧ s.take p.length = p) := by
  intro p
  induction p with
  | nil => intro s; simp [hasPref]
  | cons a t ih =>
    intro s
    cases s with
    | nil => simp [hasPref]
    | cons b s' =>
      simp only [hasPref, Bool.and_eq_true, beq_iff_eq, List.length_cons, List.take_succ_cons,
        List.cons.injEq, ih]
      constructor
      · rintro ⟨rfl, h1, h2⟩; exact ⟨by omega, rfl, h2⟩
      · rintro ⟨h0, rfl, h2⟩; exact ⟨rfl, by omega, h2⟩

theorem hasPref_append_drop : ∀ (p s : Bytes), hasPref p s = true → s = p ++ s.drop p.length := by
  intro p s h
  rw [hasPref_iff_take] at h
  conv_lhs => rw [← List.take_append_drop p.length s]
  rw [h.2]

theorem hasPref_length_le : ∀ (p s : Bytes), hasPref p s = true → p.length ≤ s.length := by
  intro p s h; exact ((hasPref_iff_take p s).1 h).1

theorem hasPref_take : ∀ (p s : Bytes), hasPref p s = true → s.take p.length = p := by
  intro p s h; exact ((hasPref_iff_take p s).1 h).2

theorem hasPref_of_take (s : Bytes) (k : Nat) (hk : k ≤ s.length) :
    hasPref (s.take k) s = true := by
  rw [hasPref_iff_take]
  constructor
  · simp [hk]
  · rw [List.length_take, Nat.min_eq_left hk]

theorem hasPref_append_iff : ∀ (a b s : Bytes), hasPref (a ++ b) s = true ↔
    (hasPref a s = true ∧ hasPref b (s.drop a.length) = true) := by
  intro a
  induction a with
  | nil => intro b s; simp [hasPref]
  | cons x t ih =>
    intro b s
    cases s with
    | nil => simp [hasPref]
    | cons y s' => simp [hasPref, ih, and_assoc]

theorem hasPref_drop_nil (p s : Bytes) (h : hasPref p s = true) (h2 : s.drop p.length = []) :
    s = p := by
  have := hasPref_append_drop p s h
  rw [h2] at this
  simpa using this

theorem commonLen_le_left : ∀ (p k : Bytes), commonLen p k ≤ p.length := by
  intro p
  induction p with
  | nil => intro k; cases k <;> simp [commonLen]
  | cons a t ih =>
    intro k
    cases k with
    | nil => simp [commonLen]
    | cons b k' =>
      simp only [commonLen]
      split
      · simpa using ih k'
      · simp

theorem commonLen_le_right : ∀ (p k : Bytes), commonLen p k ≤ k.length := by
  intro p
  induction p with
  | nil => intro k; cases k <;> simp [commonLen]
  | cons a t ih =>
    intro k
    cases k with
    | nil => simp [commonLen]
    | cons b k' =>
      simp only [commonLen]
      split
      · simpa using ih k'
      · simp

theorem commonLen_take : ∀ (p k : Bytes), p.take (commonLen p k) = k.take (commonLen p k) := by
  intro p
  induction p with
  | nil => intro k; cases k <;> simp [commonLen]
  | cons a t ih =>
    intro k
    cases k with
    | nil => simp [commonLen]
    | cons b k' =>
      simp only [commonLen]
      split
      · next hab =>
        simp only [List.take_succ_cons, beq_iff_eq] at hab ⊢
        rw [hab, ih k']
      · simp

theorem commonLen_eq_length_iff : ∀ (p k : Bytes), commonLen p k = p.length ↔ hasPref p k = true := by
  intro p
  induction p with
  | nil => intro k; cases k <;> simp [commonLen, hasPref]
  | cons a t ih =>
    intro k
    cases k with
    | nil =>
      simp only [commonLen, hasPref, List.length_cons]
      constructor
      · intro h; omega
      · intro h; exact (Bool.false_ne_true h).elim
    | cons b k' =>
      simp only [commonLen, hasPref, Bool.and_eq_true, beq_iff_eq, List.length_cons]
      split
      · next hab =>
        rw [Nat.add_right_cancel_iff, ih k']
        simp [hab]
      · next hab =>
        constructor
        · intro h; omega
        · rintro ⟨rfl, _⟩; exact absurd rfl hab

theorem commonLen_next_ne : ∀ (p k : Bytes), commonLen p k < p.length → commonLen p k < k.length →
    ∃ x xs y ys, p.drop (commonLen p k) = x :: xs ∧ k.drop (commonLen p k) = y :: ys ∧ x ≠ y := by
  intro p
  induction p with
  | nil => intro k h _; simp at h
  | cons a t ih =>
    intro k
    cases k with
    | nil => intro _ h; simp at h
    | cons b k' =>
      simp only [commonLen]
      split
      · next hab =>
        simp only [beq_iff_eq] at hab
        intro h1 h2
        simp only [List.length_cons] at h1 h2
        obtain ⟨x, xs, y, ys, e1, e2, hxy⟩ := ih k' (by omega) (by omega)
        exact ⟨x, xs, y, ys, by simpa using e1, by simpa using e2, hxy⟩
      · next hab =>
        simp only [beq_iff_eq] at hab
        intro _ _
        exact ⟨a, t, b, k', by simp, by simp, hab⟩

/-! ### Abstraction: the exact-key binding stored in a trie

`findPrio` walks the trie for one exact key and returns the `(value,
priority)` binding stored at its endpoint, if any.  It is structural in the
key: a prefix chain is consumed one byte at a time through a synthetic chain
node, which matches how `trieNode.add` splits chains. -/

def findPrio (mp : Nat → Nat) (ts : Nat) : TrieNode → Bytes → Option (Bytes × Nat)
  | .mk v p _ _ _, [] => if p ≠ 0 then some (v, p) else none
  | .mk _ _ pre nx tbl, b :: k =>
    match tbl with
    | some l =>
        if mp b = ts then none
        else
          match l.getD (mp b) none with
          | none => none
          | some c => findPrio mp ts c k
    | none =>
      match pre with
      | [] => none
      | p0 :: ps =>
          if b = p0 then
            if ps = [] then
              match nx with
              | some c => findPrio mp ts c k
              | none => none
            else findPrio mp ts (.mk [] 0 ps nx none) k
          else none

/-- The candidate endpoints recorded by `lookup` while walking `s` from a
node: `(value, absolute depth, priority)`, in walk order. -/
def cands (mp : Nat → Nat) (ts : Nat) : TrieNode → Bytes → Nat → List (Bytes × Nat × Nat)
  | .mk v p pre nx tbl, s, n =>
    (if p ≠ 0 then [(v, n, p)] else []) ++
    match s with
    | [] => []
    | b :: s' =>
      match tbl with
      | some l =>
          if mp b = ts then []
          else
            match l.getD (mp b) none with
            | none => []
            | some c => cands mp ts c s' (n + 1)
      | none =>
        match pre with
        | [] => []
        | p0 :: ps =>
            if b = p0 then
              if ps = [] then
                match nx with
                | some c => cands mp ts c s' (n + 1)
                | none => []
              else cands mp ts (.mk [] 0 ps nx none) s' (n + 1)
            else []

/-- A node with its priority erased (used to express the `ignoreRoot`
suppression of a root match). -/
def zeroP : TrieNode → TrieNode
  | .mk v _ pre nx tbl => .mk v 0 pre nx tbl

theorem findPrio_empty (mp : Nat → Nat) (ts : Nat) : ∀ k, findPrio mp ts emptyNode k = none := by
  intro k
  cases k <;> simp [findPrio, emptyNode]

theorem findPrio_leaf (mp : Nat → Nat) (ts : Nat) (v : Bytes) (p : Nat) :
    ∀ k, k ≠ [] → findPrio mp ts (.mk v p [] none none) k = none := by
  intro k hk
  cases k with
  | nil => exact absurd rfl hk
  | cons b k' => simp [findPrio]

/-- Characterisation of `findPrio` on a chain node. -/
theorem findPrio_chain (mp : Nat → Nat) (ts : Nat) :
    ∀ (pre : Bytes), pre ≠ [] → ∀ (v : Bytes) (p : Nat) (nx : Option TrieNode) (k : Bytes),
    findPrio mp ts (.mk v p pre nx none) k =
      if k = [] then (if p ≠ 0 then some (v, p) else none)
      else if hasPref pre k = true then
        (match nx with
         | some c => findPrio mp ts c (k.drop pre.length)
         | none => none)
      else none := by
  intro pre
  induction pre with
  | nil => intro h; exact absurd rfl h
  | cons p0 ps ih =>
    intro _ v p nx k
    cases k with
    | nil => simp [findPrio]
    | cons b k' =>
      by_cases hb : b = p0
      · subst hb
        by_cases hps : ps = []
        · subst hps
          cases nx with
          | none => simp [findPrio, hasPref, hasPref_refl]
          | some c => simp [findPrio, hasPref]
        · have ihx := ih hps [] 0 nx k'
          simp only [findPrio, if_pos rfl, if_neg hps]
          rw [ihx]
          cases k' with
          | nil =>
            have : hasPref ps [] = false := by cases ps with
              | nil => exact absurd rfl hps
              | cons q qs => rfl
            simp [hasPref, this]
          | cons c k'' =>
            simp only [List.cons_ne_self, hasPref]
            by_cases hp : hasPref ps (c :: k'') = true
            · simp [hp, List.length_cons, List.drop_succ_cons]
            · simp only [Bool.not_eq_true] at hp
              simp [hp]
      · simp [findPrio, hasPref, hb, Ne.symm hb]

/-- Splitting a chain in the middle does not change the stored bindings. -/
theorem findPrio_chain_split (mp : Nat → Nat) (ts : Nat) (a b : Bytes) (ha : a ≠ []) (hb : b ≠ [])
    (v : Bytes) (p : Nat) (nx : Option TrieNode) (k : Bytes) :
    findPrio mp ts (.mk v p (a ++ b) nx none) k =
      findPrio mp ts (.mk v p a (some (.mk [] 0 b nx none)) none) k := by
  rw [findPrio_chain mp ts (a ++ b) (by simp [ha]) v p nx k,
    findPrio_chain mp ts a ha v p (some (.mk [] 0 b nx none)) k]
  by_cases hk : k = []
  · simp [hk]
  · simp only [if_neg hk]
    by_cases hab : hasPref (a ++ b) k = true
    · have h2 := (hasPref_append_iff a b k).1 hab
      rw [if_pos hab, if_pos h2.1, findPrio_chain mp ts b hb [] 0 nx (k.drop a.length)]
      by_cases hd : k.drop a.length = []
      · rw [if_pos hd]
        rw [hd] at h2
        cases b with
        | nil => exact absurd rfl hb
        | cons q qs => simp [hasPref] at h2
      · rw [if_neg hd, if_pos h2.2, List.drop_drop, List.length_append, Nat.add_comm]
    · rw [if_neg hab]
      by_cases hak : hasPref a k = true
      · rw [if_pos hak, findPrio_chain mp ts b hb [] 0 nx (k.drop a.length)]
        have hbk : ¬ hasPref b (k.drop a.length) = true := by
          intro hc; exact hab ((hasPref_append_iff a b k).2 ⟨hak, hc⟩)
        by_cases hd : k.drop a.length = []
        · simp [hd]
        · simp [hd, hbk]
      · rw [if_neg hak]

/-! ### Properties of the byte-class map -/

/-- The dense index assigned to a marked byte: the number of marked bytes
below it. -/
def rankOf (oldnew : List Bytes) (b : Nat) : Nat :=
  ((List.range b).filter (fun i => usedByte oldnew i)).length

theorem rankOf_succ (oldnew : List Bytes) (b : Nat) :
    rankOf oldnew (b + 1) = rankOf oldnew b + (if usedByte oldnew b then 1 else 0) := by
  unfold rankOf
  rw [List.range_succ, List.filter_append, List.length_append]
  simp only [List.filter]
  split <;> simp_all

theorem rankOf_le_self (oldnew : List Bytes) (b : Nat) : rankOf oldnew b ≤ b := by
  calc rankOf oldnew b ≤ (List.range b).length := List.length_filter_le _ _
    _ = b := List.length_range b

theorem rankOf_add_le (oldnew : List Bytes) : ∀ (d b : Nat),
    rankOf oldnew (b + d) ≤ rankOf oldnew b + d := by
  intro d
  induction d with
  | zero => intro b; simp
  | succ e ih =>
    intro b
    rw [← Nat.add_assoc, rankOf_succ]
    have := ih b
    split <;> omega

theorem rankOf_mono (oldnew : List Bytes) : ∀ {b c : Nat}, b ≤ c →
    rankOf oldnew b ≤ rankOf oldnew c := by
  intro b c h
  induction c, h using Nat.le_induction with
  | base => exact Nat.le_refl _
  | succ c _ ih =>
    rw [rankOf_succ]
    split <;> omega

theorem rankOf_strict (oldnew : List Bytes) {b c : Nat} (hu : usedByte oldnew b = true)
    (h : b < c) : rankOf oldnew b < rankOf oldnew c := by
  have h1 : rankOf oldnew (b + 1) = rankOf oldnew b + 1 := by rw [rankOf_succ, if_pos hu]
  have h2 : rankOf oldnew (b + 1) ≤ rankOf oldnew c := rankOf_mono oldnew h
  omega

theorem tableSizeOf_eq_rank (oldnew : List Bytes) : tableSizeOf oldnew = rankOf oldnew 256 := rfl

theorem mp_used (oldnew : List Bytes) {b : Nat} (hu : usedByte oldnew b = true) :
    mappingOf oldnew b = rankOf oldnew b := by
  unfold mappingOf
  rw [if_pos hu]
  rfl

theorem mp_lt_ts (oldnew : List Bytes) {b : Nat} (hb : b < 256) (hu : usedByte oldnew b = true) :
    mappingOf oldnew b < tableSizeOf oldnew := by
  rw [mp_used oldnew hu, tableSizeOf_eq_rank]
  exact rankOf_strict oldnew hu hb

theorem ts_lt_256_of_unused (oldnew : List Bytes) {b : Nat} (hb : b < 256)
    (hu : usedByte oldnew b = false) : tableSizeOf oldnew < 256 := by
  rw [tableSizeOf_eq_rank]
  have h1 : rankOf oldnew (b + 1) = rankOf oldnew b := by
    rw [rankOf_succ, hu]
    simp
  have h2 : rankOf oldnew 256 ≤ rankOf oldnew (b + 1) + (256 - (b + 1)) := by
    have := rankOf_add_le oldnew (256 - (b + 1)) (b + 1)
    have he : b + 1 + (256 - (b + 1)) = 256 := by omega
    rw [he] at this
    exact this
  have h3 : rankOf oldnew b ≤ b := rankOf_le_self oldnew b
  omega

theorem mp_dichot (oldnew : List Bytes) {b : Nat} (hb : b < 256) :
    (usedByte oldnew b = true ∧ mappingOf oldnew b < tableSizeOf oldnew) ∨
    (usedByte oldnew b = false ∧ mappingOf oldnew b = tableSizeOf oldnew) := by
  cases hu : usedByte oldnew b with
  | true => exact Or.inl ⟨rfl, mp_lt_ts oldnew hb hu⟩
  | false =>
    refine Or.inr ⟨rfl, ?_⟩
    unfold mappingOf
    rw [hu]
    simp only [Bool.false_eq_true, if_false]
    exact Nat.mod_eq_of_lt (ts_lt_256_of_unused oldnew hb hu)

theorem mp_inj (oldnew : List Bytes) {b c : Nat}
    (ub : usedByte oldnew b = true) (uc : usedByte oldnew c = true)
    (h : mappingOf oldnew b = mappingOf oldnew c) : b = c := by
  rw [mp_used oldnew ub, mp_used oldnew uc] at h
  rcases Nat.lt_trichotomy b c with hlt | heq | hgt
  · exact absurd h (Nat.ne_of_lt (rankOf_strict oldnew ub hlt))
  · exact heq
  · exact absurd h.symm (Nat.ne_of_lt (rankOf_strict oldnew uc hgt))

/-! ### Structural well-formedness of trie nodes -/

/-- Every byte of the key is a real byte value that the byte-class map has
marked. -/
def goodKey (used : Nat → Bool) (key : Bytes) : Prop :=
  ∀ b ∈ key, b < 256 ∧ used b = true

/-- Bytes of a probe key are real byte values. -/
def goodLt (key : Bytes) : Prop := ∀ b ∈ key, b < 256

/-- Structural invariant of trie nodes: a node with a nonempty prefix chain
has a successor and no table, tables have exactly `tableSize` slots, chain
bytes are marked bytes, and all children are again well-formed. -/
inductive WF (used : Nat → Bool) (ts : Nat) : TrieNode → Prop where
  | intro (v : Bytes) (p : Nat) (pre : Bytes) (nx : Option TrieNode)
      (tbl : Option (List (Option TrieNode)))
      (hpre : pre ≠ [] → nx.isSome = true ∧ tbl = none ∧ ∀ b ∈ pre, b < 256 ∧ used b = true)
      (hlen : ∀ l, tbl = some l → l.length = ts)
      (hnx : ∀ c, nx = some c → WF used ts c)
      (htbl : ∀ l, tbl = some l → ∀ x ∈ l, ∀ c, x = some c → WF used ts c) :
      WF used ts (.mk v p pre nx tbl)

theorem WF_empty (used : Nat → Bool) (ts : Nat) : WF used ts emptyNode := by
  refine WF.intro [] 0 [] none none ?_ ?_ ?_ ?_
  · intro h; exact absurd rfl h
  · intro l h; cases h
  · intro c h; cases h
  · intro l h; cases h

@[simp] theorem value_mk (v : Bytes) (p : Nat) (pre : Bytes) (nx : Option TrieNode)
    (tbl : Option (List (Option TrieNode))) : (TrieNode.mk v p pre nx tbl).value = v := rfl
@[simp] theorem priority_mk (v : Bytes) (p : Nat) (pre : Bytes) (nx : Option TrieNode)
    (tbl : Option (List (Option TrieNode))) : (TrieNode.mk v p pre nx tbl).priority = p := rfl
@[simp] theorem pre_mk (v : Bytes) (p : Nat) (pre : Bytes) (nx : Option TrieNode)
    (tbl : Option (List (Option TrieNode))) : (TrieNode.mk v p pre nx tbl).pre = pre := rfl
@[simp] theorem next_mk (v : Bytes) (p : Nat) (pre : Bytes) (nx : Option TrieNode)
    (tbl : Option (List (Option TrieNode))) : (TrieNode.mk v p pre nx tbl).next = nx := rfl
@[simp] theorem table_mk (v : Bytes) (p : Nat) (pre : Bytes) (nx : Option TrieNode)
    (tbl : Option (List (Option TrieNode))) : (TrieNode.mk v p pre nx tbl).table = tbl := rfl

theorem commonLen_zero_cons {a b : Nat} {x y : Bytes} (h : commonLen (a :: x) (b :: y) = 0) :
    a ≠ b := by
  intro he
  subst he
  simp [commonLen] at h

theorem getD_mem {α : Type} : ∀ (l : List (Option α)) (n : Nat) (x : α),
    l.getD n none = some x → some x ∈ l := by
  intro l
  induction l with
  | nil => intro n x h; simp [List.getD] at h
  | cons a t ih =>
    intro n x h
    cases n with
    | zero =>
      rw [List.getD_cons_zero] at h
      simp [h]
    | succ m =>
      rw [List.getD_cons_succ] at h
      exact List.mem_cons_of_mem a (ih m x h)

/-- `findPrio` at a nonempty key does not depend on a node's value and
priority fields. -/
theorem findPrio_cons_ext (mp : Nat → Nat) (ts : Nat) (v v' : Bytes) (p p' : Nat) (pre : Bytes)
    (nx : Option TrieNode) (tbl : Option (List (Option TrieNode))) (b : Nat) (k : Bytes) :
    findPrio mp ts (.mk v p pre nx tbl) (b :: k) =
      findPrio mp ts (.mk v' p' pre nx tbl) (b :: k) := by
  simp only [findPrio]

/-! ### Branch equations for `addF` -/

theorem addF_nil (mp : Nat → Nat) (ts fuel : Nat) (t : TrieNode) (val : Bytes) (prio : Nat) :
    addF mp ts (fuel + 1) t [] val prio =
      if t.priority = 0 then .mk val prio t.pre t.next t.table else t := rfl

theorem addF_chainfull (mp : Nat → Nat) (ts fuel : Nat) (v : Bytes) (p : Nat) (pre : Bytes)
    (nx : Option TrieNode) (tbl : Option (List (Option TrieNode))) (b : Nat) (ks val : Bytes)
    (prio : Nat) (hpre : pre ≠ []) (hn : commonLen pre (b :: ks) = pre.length) :
    addF mp ts (fuel + 1) (.mk v p pre nx tbl) (b :: ks) val prio =
      .mk v p pre (some (addF mp ts fuel (nx.getD emptyNode) ((b :: ks).drop pre.length) val prio))
        tbl := by
  simp only [addF, pre_mk, next_mk, table_mk, value_mk, priority_mk]
  rw [if_pos hpre, if_pos hn, hn]

theorem addF_split0 (mp : Nat → Nat) (ts fuel : Nat) (v : Bytes) (p : Nat) (pre : Bytes)
    (nx : Option TrieNode) (tbl : Option (List (Option TrieNode))) (b : Nat) (ks val : Bytes)
    (prio : Nat) (hpre : pre ≠ []) (hne : commonLen pre (b :: ks) ≠ pre.length)
    (h0 : commonLen pre (b :: ks) = 0) :
    addF mp ts (fuel + 1) (.mk v p pre nx tbl) (b :: ks) val prio =
      .mk v p [] none
        (some (((List.replicate ts none).set (mp (pre.headD 0))
            (if pre.length = 1 then nx else some (.mk [] 0 (pre.drop 1) nx none))).set
          (mp b) (some (addF mp ts fuel emptyNode ks val prio)))) := by
  simp only [addF, pre_mk, next_mk, table_mk, value_mk, priority_mk]
  rw [if_pos hpre, if_neg hne, if_pos h0]

theorem addF_splitmid (mp : Nat → Nat) (ts fuel : Nat) (v : Bytes) (p : Nat) (pre : Bytes)
    (nx : Option TrieNode) (tbl : Option (List (Option TrieNode))) (b : Nat) (ks val : Bytes)
    (prio : Nat) (hpre : pre ≠ []) (hne : commonLen pre (b :: ks) ≠ pre.length)
    (h0 : commonLen pre (b :: ks) ≠ 0) :
    addF mp ts (fuel + 1) (.mk v p pre nx tbl) (b :: ks) val prio =
      .mk v p (pre.take (commonLen pre (b :: ks)))
        (some (addF mp ts fuel (.mk [] 0 (pre.drop (commonLen pre (b :: ks))) nx none)
          ((b :: ks).drop (commonLen pre (b :: ks))) val prio)) tbl := by
  simp only [addF, pre_mk, next_mk, table_mk, value_mk, priority_mk]
  rw [if_pos hpre, if_neg hne, if_neg h0]

theorem addF_table (mp : Nat → Nat) (ts fuel : Nat) (v : Bytes) (p : Nat)
    (nx : Option TrieNode) (l : List (Option TrieNode)) (b : Nat) (ks val : Bytes) (prio : Nat) :
    addF mp ts (fuel + 1) (.mk v p [] nx (some l)) (b :: ks) val prio =
      .mk v p [] nx
        (some (l.set (mp b)
          (some (addF mp ts fuel ((l.getD (mp b) none).getD emptyNode) ks val prio)))) := by
  simp only [addF, pre_mk, next_mk, table_mk, value_mk, priority_mk]
  rw [if_neg (by simp)]

theorem addF_fresh (mp : Nat → Nat) (ts fuel : Nat) (v : Bytes) (p : Nat)
    (nx : Option TrieNode) (b : Nat) (ks val : Bytes) (prio : Nat) :
    addF mp ts (fuel + 1) (.mk v p [] nx none) (b :: ks) val prio =
      .mk v p (b :: ks) (some (addF mp ts fuel emptyNode [] val prio)) none := by
  simp only [addF, pre_mk, next_mk, table_mk, value_mk, priority_mk]
  rw [if_neg (by simp)]

theorem addF_main (used : Nat → Bool) (mp : Nat → Nat) (ts : Nat)
    (Hdich : ∀ b, b < 256 → (used b = true ∧ mp b < ts) ∨ (used b = false ∧ mp b = ts))
    (Hinj : ∀ b c, used b = true → used c = true → mp b = mp c → b = c) :
    ∀ (fuel : Nat) (key : Bytes) (t : TrieNode) (val : Bytes) (prio : Nat),
      key.length < fuel → WF used ts t → goodKey used key → 0 < prio →
      WF used ts (addF mp ts fuel t key val prio) ∧
      findPrio mp ts (addF mp ts fuel t key val prio) key =
        some ((findPrio mp ts t key).getD (val, prio)) ∧
      ∀ k, goodLt k → k ≠ key → findPrio mp ts (addF mp ts fuel t key val prio) k =
        findPrio mp ts t k := by
  intro fuel
  induction fuel with
  | zero => intro key t val prio h _ _ _; omega
  | succ fuel ih =>
    intro key t val prio hlen hwf hgood hprio
    cases hwf with
    | intro v p pre nx tbl hpre hlenT hnx htbl =>
    cases key with
    | nil =>
      rw [addF_nil]
      simp only [priority_mk, pre_mk, next_mk, table_mk]
      by_cases hp : p = 0
      · rw [if_pos hp]
        subst hp
        refine ⟨WF.intro val prio pre nx tbl hpre hlenT hnx htbl, ?_, ?_⟩
        · have h1 : findPrio mp ts (.mk v 0 pre nx tbl) [] = none := by simp [findPrio]
          have h2 : findPrio mp ts (.mk val prio pre nx tbl) [] = some (val, prio) := by
            simp only [findPrio, if_pos (by omega : prio ≠ 0)]
          rw [h1, h2]
          rfl
        · intro k _ hkne
          cases k with
          | nil => exact absurd rfl hkne
          | cons c k' => exact findPrio_cons_ext mp ts val v prio 0 pre nx tbl c k'
      · rw [if_neg hp]
        refine ⟨WF.intro v p pre nx tbl hpre hlenT hnx htbl, ?_, fun k _ _ => rfl⟩
        simp only [findPrio, if_pos (hp : p ≠ 0)]
        rfl
    | cons b ks =>
      have hbu := hgood b (List.mem_cons_self b ks)
      have hgks : goodKey used ks := fun x hx => hgood x (List.mem_cons_of_mem b hx)
      have hmb : mp b < ts := by
        rcases Hdich b hbu.1 with ⟨_, h⟩ | ⟨h, _⟩
        · exact h
        · rw [hbu.2] at h; cases h
      by_cases hpn : pre = []
      · subst hpn
        cases tbl with
        | some l =>
          rw [addF_table]
          have hll : l.length = ts := hlenT l rfl
          have hcwf : WF used ts ((l.getD (mp b) none).getD emptyNode) := by
            cases hc : l.getD (mp b) none with
            | none => exact WF_empty used ts
            | some c0 =>
              simp only [Option.getD_some]
              exact htbl l rfl (some c0) (getD_mem l (mp b) c0 hc) c0 rfl
          obtain ⟨ihWF, ihSame, ihOther⟩ :=
            ih ks ((l.getD (mp b) none).getD emptyNode) val prio
              (by simp only [List.length_cons] at hlen; omega) hcwf hgks hprio
          refine ⟨?_, ?_, ?_⟩
          · refine WF.intro v p [] nx _ (fun h => absurd rfl h) ?_ hnx ?_
            · intro l' h
              injection h with h
              subst h
              rw [List.length_set]
              exact hll
            · intro l' h x hx c hc
              injection h with h
              subst h
              rcases List.mem_or_eq_of_mem_set hx with hx' | rfl
              · exact htbl l rfl x hx' c hc
              · injection hc with hc
                exact hc ▸ ihWF
          · simp only [findPrio, if_neg (Nat.ne_of_lt hmb)]
            rw [getD_set_self l (mp b) _ none (by rw [hll]; exact hmb)]
            simp only [ihSame]
            cases hc : l.getD (mp b) none with
            | none => simp [findPrio_empty]
            | some c0 => simp
          · intro k hk hkne
            cases k with
            | nil => simp [findPrio]
            | cons c k' =>
              simp only [findPrio]
              by_cases hcs : mp c = ts
              · rw [if_pos hcs, if_pos hcs]
              · rw [if_neg hcs, if_neg hcs]
                have hcu : used c = true := by
                  rcases Hdich c (hk c (List.mem_cons_self c k')) with ⟨h, _⟩ | ⟨_, h⟩
                  · exact h
                  · exact absurd h hcs
                by_cases hcb : c = b
                · subst hcb
                  rw [getD_set_self l (mp c) _ none (by rw [hll]; exact hmb)]
                  have hk' : k' ≠ ks := by
                    intro he; exact hkne (by rw [he])
                  simp only [ihOther k' (fun x hx => hk x (List.mem_cons_of_mem c hx)) hk']
                  cases hc : l.getD (mp c) none with
                  | none => simp [findPrio_empty]
                  | some c0 => simp
                · have hne : mp c ≠ mp b := fun he => hcb (Hinj c b hcu hbu.2 he)
                  rw [getD_set_ne l (mp b) (mp c) _ none (Ne.symm hne)]
        | none =>
          rw [addF_fresh]
          have hfuel1 : 0 < fuel := by simp only [List.length_cons] at hlen; omega
          obtain ⟨ihWF, ihSame, ihOther⟩ :=
            ih [] emptyNode val prio hfuel1 (WF_empty used ts)
              (fun x hx => absurd hx (List.not_mem_nil x)) hprio
          have hleaf : findPrio mp ts (addF mp ts fuel emptyNode [] val prio) [] =
              some (val, prio) := by
            rw [ihSame, findPrio_empty]
            rfl
          have hleafO : ∀ k, goodLt k → k ≠ [] →
              findPrio mp ts (addF mp ts fuel emptyNode [] val prio) k = none := by
            intro k hk hkne
            rw [ihOther k hk hkne, findPrio_empty]
          refine ⟨?_, ?_, ?_⟩
          · refine WF.intro v p (b :: ks) _ none
              (fun _ => ⟨rfl, rfl, hgood⟩) (fun l h => by cases h) ?_ (fun l h => by cases h)
            intro c h
            injection h with h
            exact h ▸ ihWF
          · rw [findPrio_chain mp ts (b :: ks) (by simp) v p _ (b :: ks)]
            rw [if_neg (by simp : ¬(b :: ks = [])), if_pos (hasPref_refl (b :: ks))]
            have hdrop : (b :: ks).drop (b :: ks).length = [] := List.drop_length _
            rw [hdrop]
            simp only [hleaf]
            have hold : findPrio mp ts (.mk v p [] nx none) (b :: ks) = none := by
              simp [findPrio]
            rw [hold]
            rfl
          · intro k hk hkne
            cases k with
            | nil => simp [findPrio]
            | cons c k' =>
              rw [findPrio_chain mp ts (b :: ks) (by simp) v p _ (c :: k')]
              rw [if_neg (by simp : ¬(c :: k' = []))]
              have hold : findPrio mp ts (.mk v p [] nx none) (c :: k') = none := by
                simp [findPrio]
              rw [hold]
              by_cases hp2 : hasPref (b :: ks) (c :: k') = true
              · rw [if_pos hp2]
                have hd : (c :: k').drop (b :: ks).length ≠ [] := by
                  intro hdnil
                  exact hkne (hasPref_drop_nil _ _ hp2 hdnil)
                simp only [hleafO _ (fun x hx => hk x (List.drop_subset _ _ hx)) hd]
              · rw [if_neg hp2]
      · obtain ⟨hnxs, htn, hbytes⟩ := hpre hpn
        subst htn
        obtain ⟨nx0, rfl⟩ := Option.isSome_iff_exists.mp hnxs
        by_cases hnfull : commonLen pre (b :: ks) = pre.length
        · rw [addF_chainfull mp ts fuel v p pre (some nx0) none b ks val prio hpn hnfull]
          have hhp : hasPref pre (b :: ks) = true := (commonLen_eq_length_iff pre (b :: ks)).1 hnfull
          have hpre1 : 1 ≤ pre.length := by
            cases pre with
            | nil => exact absurd rfl hpn
            | cons q qs => simp
          have hkeyd : ((b :: ks).drop pre.length).length < fuel := by
            rw [List.length_drop]
            simp only [List.length_cons] at hlen ⊢
            omega
          have hgd : goodKey used ((b :: ks).drop pre.length) :=
            fun x hx => hgood x (List.drop_subset _ _ hx)
          obtain ⟨ihWF, ihSame, ihOther⟩ := ih _ nx0 val prio hkeyd (hnx nx0 rfl) hgd hprio
          refine ⟨?_, ?_, ?_⟩
          · refine WF.intro v p pre _ none (fun _ => ⟨rfl, rfl, hbytes⟩)
              (fun l h => by cases h) ?_ (fun l h => by cases h)
            intro c h
            injection h with h
            exact h ▸ ihWF
          · rw [findPrio_chain mp ts pre hpn v p _ (b :: ks),
              findPrio_chain mp ts pre hpn v p (some nx0) (b :: ks)]
            rw [if_neg (by simp : ¬(b :: ks = [])), if_neg (by simp : ¬(b :: ks = []))]
            rw [if_pos hhp, if_pos hhp]
            simp only [Option.getD_some, ihSame]
          · intro k hk hkne
            cases k with
            | nil =>
              rw [findPrio_chain mp ts pre hpn v p _ [],
                findPrio_chain mp ts pre hpn v p (some nx0) []]
              simp
            | cons c k' =>
              rw [findPrio_chain mp ts pre hpn v p _ (c :: k'),
                findPrio_chain mp ts pre hpn v p (some nx0) (c :: k')]
              rw [if_neg (by simp : ¬(c :: k' = [])), if_neg (by simp : ¬(c :: k' = []))]
              by_cases hpk : hasPref pre (c :: k') = true
              · rw [if_pos hpk, if_pos hpk]
                simp only [Option.getD_some]
                apply ihOther
                · exact fun x hx => hk x (List.drop_subset _ _ hx)
                · intro he
                  apply hkne
                  have e1 := hasPref_append_drop pre (c :: k') hpk
                  have e2 := hasPref_append_drop pre (b :: ks) hhp
                  rw [e1, e2, he]
              · rw [if_neg hpk, if_neg hpk]
        · by_cases h0 : commonLen pre (b :: ks) = 0
          · cases pre with
            | nil => exact absurd rfl hpn
            | cons p0 ps =>
            have hne0 : p0 ≠ b := commonLen_zero_cons h0
            rw [addF_split0 mp ts fuel v p (p0 :: ps) (some nx0) none b ks val prio hpn hnfull h0]
            simp only [List.headD_cons, List.drop_succ_cons, List.drop_zero]
            have hp0g := hbytes p0 (List.mem_cons_self p0 ps)
            have hmp0 : mp p0 < ts := by
              rcases Hdich p0 hp0g.1 with ⟨_, h⟩ | ⟨h, _⟩
              · exact h
              · rw [hp0g.2] at h; cases h
            have hmpne : mp p0 ≠ mp b := fun he => hne0 (Hinj p0 b hp0g.2 hbu.2 he)
            obtain ⟨ihWF, ihSame, ihOther⟩ :=
              ih ks emptyNode val prio (by simp only [List.length_cons] at hlen; omega)
                (WF_empty used ts) hgks hprio
            have hL1len : (((List.replicate ts (none : Option TrieNode)).set (mp p0)
                (if (p0 :: ps).length = 1 then some nx0
                 else some (.mk [] 0 ps (some nx0) none)))).length = ts := by
              rw [List.length_set, List.length_replicate]
            have hgb : ((((List.replicate ts (none : Option TrieNode)).set (mp p0)
                (if (p0 :: ps).length = 1 then some nx0
                 else some (.mk [] 0 ps (some nx0) none))).set
                (mp b) (some (addF mp ts fuel emptyNode ks val prio)))).getD (mp b) none =
                some (addF mp ts fuel emptyNode ks val prio) :=
              getD_set_self _ (mp b) _ none (by rw [hL1len]; exact hmb)
            have hgp0 : ((((List.replicate ts (none : Option TrieNode)).set (mp p0)
                (if (p0 :: ps).length = 1 then some nx0
                 else some (.mk [] 0 ps (some nx0) none))).set
                (mp b) (some (addF mp ts fuel emptyNode ks val prio)))).getD (mp p0) none =
                (if (p0 :: ps).length = 1 then some nx0
                 else some (.mk [] 0 ps (some nx0) none)) := by
              rw [getD_set_ne _ (mp b) (mp p0) _ none (Ne.symm hmpne)]
              exact getD_set_self _ (mp p0) _ none (by rw [List.length_replicate]; exact hmp0)
            refine ⟨?_, ?_, ?_⟩
            · refine WF.intro v p [] none _ (fun h => absurd rfl h) ?_ (fun c h => by cases h) ?_
              · intro l' h
                injection h with h
                subst h
                rw [List.length_set]
                exact hL1len
              · intro l' h x hx c hc
                injection h with h
                subst h
                rcases List.mem_or_eq_of_mem_set hx with hx' | rfl
                · rcases List.mem_or_eq_of_mem_set hx' with hx'' | rfl
                  · rw [List.eq_of_mem_replicate hx''] at hc
                    cases hc
                  · by_cases hps : (p0 :: ps).length = 1
                    · rw [if_pos hps] at hc
                      injection hc with hc
                      exact hc ▸ hnx nx0 rfl
                    · rw [if_neg hps] at hc
                      injection hc with hc
                      subst hc
                      have hpsne : ps ≠ [] := by
                        intro he; rw [he] at hps; exact hps rfl
                      refine WF.intro [] 0 ps (some nx0) none
                        (fun _ => ⟨rfl, rfl, ?_⟩) (fun l h => by cases h) ?_ (fun l h => by cases h)
                      · exact fun x hx => hbytes x (List.mem_cons_of_mem p0 hx)
                      · intro c h
                        injection h with h
                        exact h ▸ hnx nx0 rfl
                · injection hc with hc
                  exact hc ▸ ihWF
            · simp only [findPrio, if_neg (Nat.ne_of_lt hmb)]
              rw [hgb, if_neg (Ne.symm hne0)]
              simp only [ihSame, findPrio_empty, Option.getD_none]
            · intro k hk hkne
              cases k with
              | nil => simp [findPrio]
              | cons c k' =>
                simp only [findPrio]
                by_cases hcs : mp c = ts
                · rw [if_pos hcs]
                  have hcp0 : ¬(c = p0) := by
                    intro he
                    rw [he] at hcs
                    exact Nat.ne_of_lt hmp0 hcs
                  rw [if_neg hcp0]
                · rw [if_neg hcs]
                  have hcu : used c = true := by
                    rcases Hdich c (hk c (List.mem_cons_self c k')) with ⟨h, _⟩ | ⟨_, h⟩
                    · exact h
                    · exact absurd h hcs
                  by_cases hcb : c = b
                  · subst hcb
                    rw [hgb]
                    have hk' : k' ≠ ks := fun he => hkne (by rw [he])
                    simp only [ihOther k' (fun x hx => hk x (List.mem_cons_of_mem c hx)) hk',
                      findPrio_empty]
                    rw [if_neg (fun he => hne0 he.symm : ¬(c = p0))]
                  · by_cases hcp : c = p0
                    · subst hcp
                      rw [hgp0, if_pos rfl]
                      by_cases hps : ps = []
                      · subst hps
                        rw [if_pos (by simp : ((c : Nat) :: ([] : Bytes)).length = 1), if_pos rfl]
                      · rw [if_neg (by simp [hps] : ¬((c : Nat) :: ps).length = 1), if_neg hps]
                    · have hnec : mp c ≠ mp b := fun he => hcb (Hinj c b hcu hbu.2 he)
                      have hnec0 : mp c ≠ mp p0 := fun he => hcp (Hinj c p0 hcu hp0g.2 he)
                      rw [getD_set_ne _ (mp b) (mp c) _ none (Ne.symm hnec),
                        getD_set_ne _ (mp p0) (mp c) _ none (Ne.symm hnec0),
                        getD_replicate]
                      rw [if_neg hcp]
          · rw [addF_splitmid mp ts fuel v p pre (some nx0) none b ks val prio hpn hnfull h0]
            have hnle : commonLen pre (b :: ks) ≤ pre.length := commonLen_le_left _ _
            have hnlt : commonLen pre (b :: ks) < pre.length := by omega
            have hnler : commonLen pre (b :: ks) ≤ (b :: ks).length := commonLen_le_right _ _
            have htk : pre.take (commonLen pre (b :: ks)) ≠ [] := by
              intro hc
              rw [List.take_eq_nil_iff] at hc
              rcases hc with hc | hc
              · exact h0 hc
              · exact hpn hc
            have hdk : pre.drop (commonLen pre (b :: ks)) ≠ [] := by
              intro hc
              rw [List.drop_eq_nil_iff] at hc
              omega
            have hnlen : (pre.take (commonLen pre (b :: ks))).length = commonLen pre (b :: ks) := by
              rw [List.length_take]
              omega
            have hwfInner : WF used ts (.mk [] 0 (pre.drop (commonLen pre (b :: ks))) (some nx0) none) := by
              refine WF.intro [] 0 _ (some nx0) none
                (fun _ => ⟨rfl, rfl, fun x hx => hbytes x (List.drop_subset _ _ hx)⟩)
                (fun l h => by cases h) ?_ (fun l h => by cases h)
              intro c h
              injection h with h
              exact h ▸ hnx nx0 rfl
            have hkeyd : ((b :: ks).drop (commonLen pre (b :: ks))).length < fuel := by
              rw [List.length_drop]
              simp only [List.length_cons] at hlen ⊢
              omega
            obtain ⟨ihWF, ihSame, ihOther⟩ :=
              ih _ _ val prio hkeyd hwfInner
                (fun x hx => hgood x (List.drop_subset _ _ hx)) hprio
            have hpfk : hasPref (pre.take (commonLen pre (b :: ks))) (b :: ks) = true := by
              rw [commonLen_take]
              exact hasPref_of_take (b :: ks) (commonLen pre (b :: ks)) hnler
            have hInnerNone : findPrio mp ts
                (.mk [] 0 (pre.drop (commonLen pre (b :: ks))) (some nx0) none)
                ((b :: ks).drop (commonLen pre (b :: ks))) = none := by
              cases hkd : (b :: ks).drop (commonLen pre (b :: ks)) with
              | nil => simp [findPrio]
              | cons y ys =>
                have hlt2 : commonLen pre (b :: ks) < (b :: ks).length := by
                  by_contra hcc
                  rw [List.drop_eq_nil_iff.2 (by omega)] at hkd
                  cases hkd
                obtain ⟨x, xs, y', ys', e1, e2, hxy⟩ := commonLen_next_ne pre (b :: ks) hnlt hlt2
                rw [hkd] at e2
                injection e2 with e2a e2b
                subst e2a
                rw [e1]
                simp only [findPrio]
                rw [if_neg (fun hc => hxy hc.symm : ¬(y = x))]
            refine ⟨?_, ?_, ?_⟩
            · refine WF.intro v p _ _ none
                (fun _ => ⟨rfl, rfl, fun x hx => hbytes x (List.take_subset _ _ hx)⟩)
                (fun l h => by cases h) ?_ (fun l h => by cases h)
              intro c h
              injection h with h
              exact h ▸ ihWF
            · rw [findPrio_chain mp ts _ htk v p _ (b :: ks),
                findPrio_chain mp ts pre hpn v p (some nx0) (b :: ks)]
              rw [if_neg (by simp : ¬(b :: ks = [])), if_neg (by simp : ¬(b :: ks = []))]
              have hnpf : ¬ hasPref pre (b :: ks) = true := by
                intro hc
                exact hnfull ((commonLen_eq_length_iff pre (b :: ks)).2 hc)
              rw [if_pos hpfk, if_neg hnpf, hnlen]
              simp only [ihSame, hInnerNone, Option.getD_none]
            · intro k hk hkne
              have hsplit : (TrieNode.mk v p pre (some nx0) none) =
                  .mk v p (pre.take (commonLen pre (b :: ks)) ++
                    pre.drop (commonLen pre (b :: ks))) (some nx0) none := by
                rw [List.take_append_drop]
              rw [hsplit, findPrio_chain_split mp ts _ _ htk hdk v p (some nx0) k]
              cases k with
              | nil =>
                rw [findPrio_chain mp ts _ htk v p _ [], findPrio_chain mp ts _ htk v p _ []]
                simp
              | cons c k' =>
                rw [findPrio_chain mp ts _ htk v p _ (c :: k'),
                  findPrio_chain mp ts _ htk v p _ (c :: k')]
                rw [if_neg (by simp : ¬(c :: k' = [])), if_neg (by simp : ¬(c :: k' = []))]
                by_cases hpk : hasPref (pre.take (commonLen pre (b :: ks))) (c :: k') = true
                · rw [if_pos hpk, if_pos hpk, hnlen]
                  simp only [Option.getD_some]
                  apply ihOther
                  · exact fun x hx => hk x (List.drop_subset _ _ hx)
                  · intro he
                    apply hkne
                    have e1 := hasPref_append_drop _ (c :: k') hpk
                    have e2 := hasPref_append_drop _ (b :: ks) hpfk
                    rw [hnlen] at e1 e2
                    rw [e1, he]
                    exact e2.symm
                · rw [if_neg hpk, if_neg hpk]

/-! ### Builder correctness: the built trie stores the first declared binding
for every exact key -/

theorem findPrio_root0 (mp : Nat → Nat) (ts : Nat) :
    ∀ k, findPrio mp ts (.mk [] 0 [] none (some (List.replicate ts none))) k = none := by
  intro k
  cases k with
  | nil => simp [findPrio]
  | cons b k' =>
    simp only [findPrio]
    by_cases h : mp b = ts
    · rw [if_pos h]
    · rw [if_neg h, getD_replicate]

theorem addPairs_spec (used : Nat → Bool) (mp : Nat → Nat) (ts : Nat)
    (Hdich : ∀ b, b < 256 → (used b = true ∧ mp b < ts) ∨ (used b = false ∧ mp b = ts))
    (Hinj : ∀ b c, used b = true → used c = true → mp b = mp c → b = c) :
    ∀ (l : List Bytes) (t : TrieNode), WF used ts t →
      (∀ old ∈ oldsOf l, goodKey used old) →
      WF used ts (addPairs mp ts t l) ∧
      ∀ k, goodLt k → findPrio mp ts (addPairs mp ts t l) k =
        match findPrio mp ts t k with
        | some x => some x
        | none => ((pairsP l).find? (fun tr => tr.1 == k)).map (fun tr => (tr.2.1, tr.2.2)) := by
  intro l
  induction l using pairsP.induct with
  | case1 old new rest ih =>
    intro t hwf hgoods
    have hgoodOld : goodKey used old := hgoods old (by simp [oldsOf])
    obtain ⟨aWF, aSame, aOther⟩ :=
      addF_main used mp ts Hdich Hinj (old.length + 1) old t new (rest.length + 2)
        (by omega) hwf hgoodOld (by omega)
    have hrest : ∀ old' ∈ oldsOf rest, goodKey used old' := by
      intro old' h
      exact hgoods old' (by simp [oldsOf, h])
    obtain ⟨pWF, pSame⟩ := ih (t.add mp ts old new (rest.length + 2)) aWF hrest
    refine ⟨by simpa [addPairs] using pWF, ?_⟩
    intro k hk
    simp only [addPairs]
    rw [pSame k hk]
    by_cases hko : k = old
    · subst hko
      rw [show TrieNode.add mp ts t k new (rest.length + 2) =
        addF mp ts (k.length + 1) t k new (rest.length + 2) from rfl, aSame]
      simp only [pairsP, List.find?]
      rw [show (k == k) = true by simp]
      cases hf : findPrio mp ts t k with
      | none => simp
      | some x => simp
    · rw [show TrieNode.add mp ts t old new (rest.length + 2) =
        addF mp ts (old.length + 1) t old new (rest.length + 2) from rfl, aOther k hk hko]
      cases hf : findPrio mp ts t k with
      | none =>
        simp only [pairsP, List.find?]
        rw [show ((old == k) = false) from beq_eq_false_iff_ne.2 (fun h => hko h.symm)]
      | some x => simp
  | case2 l hl =>
    intro t hwf _
    have hp : pairsP l = [] := by
      cases l with
      | nil => rfl
      | cons a r =>
        cases r with
        | nil => rfl
        | cons x y => exact absurd rfl (hl a x y)
    have ha : addPairs mp ts t l = t := by
      cases l with
      | nil => rfl
      | cons a r =>
        cases r with
        | nil => rfl
        | cons x y => exact absurd rfl (hl a x y)
    refine ⟨by rw [ha]; exact hwf, ?_⟩
    intro k _
    rw [ha, hp]
    cases findPrio mp ts t k <;> simp

/-! ### The walk candidates of `lookup` -/

theorem cands_chain (mp : Nat → Nat) (ts : Nat) :
    ∀ (pre : Bytes), pre ≠ [] → ∀ (v : Bytes) (p : Nat) (nx : Option TrieNode) (s : Bytes) (n : Nat),
    cands mp ts (.mk v p pre nx none) s n =
      (if p ≠ 0 then [(v, n, p)] else []) ++
      (if hasPref pre s = true then
        (match nx with
         | some c => cands mp ts c (s.drop pre.length) (n + pre.length)
         | none => [])
       else []) := by
  intro pre
  induction pre with
  | nil => intro h; exact absurd rfl h
  | cons p0 ps ih =>
    intro _ v p nx s n
    cases s with
    | nil =>
      have : hasPref (p0 :: ps) [] = false := rfl
      simp [cands, this]
    | cons b s' =>
      by_cases hb : b = p0
      · subst hb
        by_cases hps : ps = []
        · subst hps
          cases nx with
          | none => simp [cands, hasPref, hasPref_refl]
          | some c => simp [cands, hasPref]
        · have ihx := ih hps [] 0 nx s' (n + 1)
          simp only [cands, if_pos rfl, if_neg hps]
          rw [ihx]
          simp only [if_neg (by omega : ¬((0 : Nat) ≠ 0)), List.nil_append, hasPref]
          by_cases hp : hasPref ps s' = true
          · simp only [hp, beq_self_eq_true, Bool.true_and, if_pos]
            cases nx with
            | none => simp
            | some c =>
              simp only [List.length_cons, List.drop_succ_cons]
              rw [Nat.add_assoc, Nat.add_comm 1 ps.length]
          · simp only [Bool.not_eq_true] at hp
            simp [hp]
      · simp [cands, hasPref, hb, Ne.symm hb]

/-- The accumulator step of `lookup`: keep the strictly higher priority. -/
def stepBest (q : Bytes × Nat × Bool × Nat) (e : Bytes × Nat × Nat) : Bytes × Nat × Bool × Nat :=
  if q.2.2.2 < e.2.2 then (e.1, e.2.1, true, e.2.2) else q

/-- Forget the best-priority component of the accumulator. -/
def projQ (q : Bytes × Nat × Bool × Nat) : Bytes × Nat × Bool := (q.1, q.2.1, q.2.2.1)

theorem foldl_stepBest_single (q : Bytes × Nat × Bool × Nat) (v : Bytes) (n P : Nat) :
    List.foldl stepBest q (if P ≠ 0 then [(v, n, P)] else []) = stepBest q (v, n, P) := by
  by_cases h : P = 0
  · subst h
    simp [stepBest]
  · simp [h]

theorem lookupF_noneEq (g : GenericReplacer) : ∀ (fuel : Nat) (s : Bytes) (n : Nat)
    (best : Bytes × Nat × Bool) (bp : Nat) (a i : Bool),
    lookupF g fuel none s n best bp a i = best := by
  intro fuel s n best bp a i
  cases fuel <;> rfl

theorem lookupF_nilEq (g : GenericReplacer) (fuel : Nat) (v : Bytes) (p : Nat) (pre : Bytes)
    (nx : Option TrieNode) (tbl : Option (List (Option TrieNode))) (n : Nat)
    (bv : Bytes) (bk : Nat) (bf : Bool) (bp : Nat) (a i : Bool) :
    lookupF g (fuel + 1) (some (.mk v p pre nx tbl)) [] n (bv, bk, bf) bp a i =
      (if bp < p ∧ ¬(i = true ∧ a = true) then (v, n, true) else (bv, bk, bf)) := rfl

theorem lookupF_tableEq (g : GenericReplacer) (fuel : Nat) (v : Bytes) (p : Nat) (pre : Bytes)
    (nx : Option TrieNode) (l : List (Option TrieNode)) (b : Nat) (s' : Bytes) (n : Nat)
    (bv : Bytes) (bk : Nat) (bf : Bool) (bp : Nat) (a i : Bool) :
    lookupF g (fuel + 1) (some (.mk v p pre nx (some l))) (b :: s') n (bv, bk, bf) bp a i =
      (if g.mapping b = g.tableSize then
        (if bp < p ∧ ¬(i = true ∧ a = true) then (v, n, true) else (bv, bk, bf))
      else lookupF g fuel (l.getD (g.mapping b) none) s' (n + 1)
        (if bp < p ∧ ¬(i = true ∧ a = true) then (v, n, true) else (bv, bk, bf))
        (if bp < p ∧ ¬(i = true ∧ a = true) then p else bp) false i) := rfl

theorem lookupF_chainEq (g : GenericReplacer) (fuel : Nat) (v : Bytes) (p : Nat) (pre : Bytes)
    (nx : Option TrieNode) (b : Nat) (s' : Bytes) (n : Nat)
    (bv : Bytes) (bk : Nat) (bf : Bool) (bp : Nat) (a i : Bool) :
    lookupF g (fuel + 1) (some (.mk v p pre nx none)) (b :: s') n (bv, bk, bf) bp a i =
      (if pre ≠ [] ∧ hasPref pre (b :: s') = true then
        lookupF g fuel nx ((b :: s').drop pre.length) (n + pre.length)
          (if bp < p ∧ ¬(i = true ∧ a = true) then (v, n, true) else (bv, bk, bf))
          (if bp < p ∧ ¬(i = true ∧ a = true) then p else bp) false i
      else (if bp < p ∧ ¬(i = true ∧ a = true) then (v, n, true) else (bv, bk, bf))) := rfl

theorem cands_nilEq (mp : Nat → Nat) (ts : Nat) (v : Bytes) (p : Nat) (pre : Bytes)
    (nx : Option TrieNode) (tbl : Option (List (Option TrieNode))) (n : Nat) :
    cands mp ts (.mk v p pre nx tbl) [] n = (if p ≠ 0 then [(v, n, p)] else []) := by
  simp [cands]

theorem cands_tableEq (mp : Nat → Nat) (ts : Nat) (v : Bytes) (p : Nat) (pre : Bytes)
    (nx : Option TrieNode) (l : List (Option TrieNode)) (b : Nat) (s' : Bytes) (n : Nat) :
    cands mp ts (.mk v p pre nx (some l)) (b :: s') n =
      (if p ≠ 0 then [(v, n, p)] else []) ++
      (if mp b = ts then []
       else match l.getD (mp b) none with
         | none => []
         | some c => cands mp ts c s' (n + 1)) := rfl

theorem cands_flatEq (mp : Nat → Nat) (ts : Nat) (v : Bytes) (p : Nat)
    (nx : Option TrieNode) (b : Nat) (s' : Bytes) (n : Nat) :
    cands mp ts (.mk v p [] nx none) (b :: s') n = (if p ≠ 0 then [(v, n, p)] else []) := by
  simp [cands]

theorem lookupF_cands (g : GenericReplacer) :
    ∀ (fuel : Nat) (t : TrieNode) (s : Bytes) (n : Nat) (q : Bytes × Nat × Bool × Nat)
      (atRoot ir : Bool), s.length < fuel →
      lookupF g fuel (some t) s n (q.1, q.2.1, q.2.2.1) q.2.2.2 atRoot ir =
        projQ (List.foldl stepBest q
          (cands g.mapping g.tableSize (if atRoot && ir then zeroP t else t) s n)) := by
  intro fuel
  induction fuel with
  | zero => intro t s n q atRoot ir h; omega
  | succ fuel ih =>
    intro t s n q atRoot ir hlen
    cases t with
    | mk v p pre nx tbl =>
    have hz : (if atRoot && ir then zeroP (.mk v p pre nx tbl) else .mk v p pre nx tbl) =
        .mk v (if atRoot && ir then 0 else p) pre nx tbl := by
      by_cases h : (atRoot && ir) = true
      · rw [if_pos h, if_pos h]; rfl
      · rw [if_neg h, if_neg h]
    rw [hz]
    have hstep : ∀ (rest : List (Bytes × Nat × Nat)),
        List.foldl stepBest q
          ((if (if atRoot && ir then 0 else p) ≠ 0 then [(v, n, (if atRoot && ir then 0 else p))]
            else []) ++ rest) =
        List.foldl stepBest (stepBest q (v, n, (if atRoot && ir then 0 else p))) rest := by
      intro rest
      rw [List.foldl_append, foldl_stepBest_single]
    have hcond : (q.2.2.2 < p ∧ ¬(ir = true ∧ atRoot = true)) ↔
        (q.2.2.2 < (if atRoot && ir then 0 else p)) := by
      by_cases h : (atRoot && ir) = true
      · rw [if_pos h]
        rw [Bool.and_eq_true] at h
        constructor
        · rintro ⟨_, habs⟩; exact absurd ⟨h.2, h.1⟩ habs
        · intro h2; omega
      · rw [if_neg h]
        rw [Bool.and_eq_true] at h
        constructor
        · rintro ⟨h1, _⟩; exact h1
        · intro h1
          refine ⟨h1, fun hc => h ⟨hc.2, hc.1⟩⟩
    have hq1 : (if q.2.2.2 < p ∧ ¬(ir = true ∧ atRoot = true) then (v, n, true)
          else (q.1, q.2.1, q.2.2.1)) =
        projQ (stepBest q (v, n, (if atRoot && ir then 0 else p))) := by
      by_cases h : q.2.2.2 < p ∧ ¬(ir = true ∧ atRoot = true)
      · rw [if_pos h]
        unfold stepBest
        rw [if_pos (hcond.1 h)]
        rfl
      · rw [if_neg h]
        unfold stepBest
        rw [if_neg (fun hc => h (hcond.2 hc))]
        rfl
    have hq2 : (if q.2.2.2 < p ∧ ¬(ir = true ∧ atRoot = true) then p else q.2.2.2) =
        (stepBest q (v, n, (if atRoot && ir then 0 else p))).2.2.2 := by
      by_cases h : q.2.2.2 < p ∧ ¬(ir = true ∧ atRoot = true)
      · rw [if_pos h]
        unfold stepBest
        rw [if_pos (hcond.1 h)]
        by_cases hr : (atRoot && ir) = true
        · rw [Bool.and_eq_true] at hr
          exact absurd ⟨hr.2, hr.1⟩ h.2
        · simp only [hr, Bool.false_eq_true, if_false]
      · rw [if_neg h]
        unfold stepBest
        rw [if_neg (fun hc => h (hcond.2 hc))]
    cases s with
    | nil =>
      rw [lookupF_nilEq, cands_nilEq, foldl_stepBest_single, hq1]
    | cons b s' =>
      have hlen' : s'.length < fuel := by
        simp only [List.length_cons] at hlen; omega
      cases tbl with
      | some l =>
        rw [lookupF_tableEq, cands_tableEq, hstep]
        by_cases hts : g.mapping b = g.tableSize
        · rw [if_pos hts, if_pos hts, List.foldl_nil, hq1]
        · rw [if_neg hts, if_neg hts]
          cases hc : l.getD (g.mapping b) none with
          | none =>
            rw [lookupF_noneEq, List.foldl_nil, hq1]
          | some c =>
            rw [hq1, hq2]
            exact ih c s' (n + 1) (stepBest q (v, n, (if atRoot && ir then 0 else p)))
              false ir hlen'
      | none =>
        by_cases hpe : pre = []
        · subst hpe
          rw [lookupF_chainEq, cands_flatEq, foldl_stepBest_single]
          rw [if_neg (by simp : ¬(([] : Bytes) ≠ [] ∧ hasPref [] (b :: s') = true)), hq1]
        · rw [lookupF_chainEq, cands_chain g.mapping g.tableSize pre hpe v _ nx (b :: s') n, hstep]
          by_cases hhp : hasPref pre (b :: s') = true
          · rw [if_pos ⟨hpe, hhp⟩, if_pos hhp]
            cases nx with
            | none =>
              rw [lookupF_noneEq, List.foldl_nil, hq1]
            | some c =>
              rw [hq1, hq2]
              have hlen2 : ((b :: s').drop pre.length).length < fuel := by
                rw [List.length_drop]
                simp only [List.length_cons] at hlen ⊢
                have h1 : 1 ≤ pre.length := by
                  cases hpre2 : pre with
                  | nil => exact absurd hpre2 hpe
                  | cons x xs => simp
                omega
              exact ih c ((b :: s').drop pre.length) (n + pre.length)
                (stepBest q (v, n, (if atRoot && ir then 0 else p))) false ir hlen2
          · rw [if_neg (fun hc => hhp hc.2), if_neg hhp, List.foldl_nil, hq1]

theorem findPrio_nilEq (mp : Nat → Nat) (ts : Nat) (v : Bytes) (p : Nat) (pre : Bytes)
    (nx : Option TrieNode) (tbl : Option (List (Option TrieNode))) :
    findPrio mp ts (.mk v p pre nx tbl) [] = if p ≠ 0 then some (v, p) else none := rfl

theorem findPrio_tableEq (mp : Nat → Nat) (ts : Nat) (v : Bytes) (p : Nat) (pre : Bytes)
    (nx : Option TrieNode) (l : List (Option TrieNode)) (b : Nat) (k : Bytes) :
    findPrio mp ts (.mk v p pre nx (some l)) (b :: k) =
      if mp b = ts then none
      else match l.getD (mp b) none with
        | none => none
        | some c => findPrio mp ts c k := rfl

theorem findPrio_chainstepEq (mp : Nat → Nat) (ts : Nat) (v : Bytes) (p : Nat) (p0 : Nat)
    (ps : Bytes) (nx : Option TrieNode) (b : Nat) (k : Bytes) :
    findPrio mp ts (.mk v p (p0 :: ps) nx none) (b :: k) =
      if b = p0 then
        (if ps = [] then
          (match nx with
           | some c => findPrio mp ts c k
           | none => none)
         else findPrio mp ts (.mk [] 0 ps nx none) k)
      else none := rfl

theorem findPrio_flatEq (mp : Nat → Nat) (ts : Nat) (v : Bytes) (p : Nat)
    (nx : Option TrieNode) (b : Nat) (k : Bytes) :
    findPrio mp ts (.mk v p [] nx none) (b :: k) = none := rfl

theorem cands_chainstepEq (mp : Nat → Nat) (ts : Nat) (v : Bytes) (p : Nat) (p0 : Nat)
    (ps : Bytes) (nx : Option TrieNode) (b : Nat) (s' : Bytes) (n : Nat) :
    cands mp ts (.mk v p (p0 :: ps) nx none) (b :: s') n =
      (if p ≠ 0 then [(v, n, p)] else []) ++
      (if b = p0 then
        (if ps = [] then
          (match nx with
           | some c => cands mp ts c s' (n + 1)
           | none => [])
         else cands mp ts (.mk [] 0 ps nx none) s' (n + 1))
      else []) := rfl

/-- Every candidate recorded on the walk of `s` is the stored binding of a
prefix of `s`. -/
theorem cands_mem (mp : Nat → Nat) (ts : Nat) :
    ∀ (s : Bytes) (t : TrieNode) (n0 : Nat) (e : Bytes × Nat × Nat),
      e ∈ cands mp ts t s n0 →
      ∃ k, k ≤ s.length ∧ e.2.1 = n0 + k ∧ findPrio mp ts t (s.take k) = some (e.1, e.2.2) := by
  intro s
  induction s with
  | nil =>
    intro t n0 e he
    cases t with | mk v p pre nx tbl =>
    rw [cands_nilEq] at he
    by_cases hp : p = 0
    · rw [if_neg (by omega : ¬(p ≠ 0))] at he
      simp at he
    · rw [if_pos hp] at he
      simp only [List.mem_singleton] at he
      subst he
      exact ⟨0, by simp, by simp, by rw [List.take_nil, findPrio_nilEq, if_pos hp]⟩
  | cons b s' ih =>
    intro t n0 e he
    cases t with | mk v p pre nx tbl =>
    have headcase : e ∈ (if p ≠ 0 then [(v, n0, p)] else []) →
        ∃ k, k ≤ (b :: s').length ∧ e.2.1 = n0 + k ∧
          findPrio mp ts (.mk v p pre nx tbl) ((b :: s').take k) = some (e.1, e.2.2) := by
      intro hh
      by_cases hp : p = 0
      · rw [if_neg (by omega : ¬(p ≠ 0))] at hh
        simp at hh
      · rw [if_pos hp] at hh
        simp only [List.mem_singleton] at hh
        subst hh
        exact ⟨0, by simp, by simp, by rw [List.take_zero, findPrio_nilEq, if_pos hp]⟩
    cases tbl with
    | some l =>
      rw [cands_tableEq] at he
      rcases List.mem_append.1 he with hh | ht
      · exact headcase hh
      · by_cases hts : mp b = ts
        · rw [if_pos hts] at ht
          simp at ht
        · rw [if_neg hts] at ht
          cases hc : l.getD (mp b) none with
          | none =>
            rw [hc] at ht
            simp at ht
          | some c =>
            rw [hc] at ht
            replace ht : e ∈ cands mp ts c s' (n0 + 1) := ht
            obtain ⟨k', hk', hn, hf⟩ := ih c (n0 + 1) e ht
            refine ⟨k' + 1, by simp [hk'], by omega, ?_⟩
            rw [List.take_succ_cons, findPrio_tableEq, if_neg hts, hc]
            exact hf
    | none =>
      cases pre with
      | nil =>
        rw [cands_flatEq] at he
        exact headcase he
      | cons p0 ps =>
        rw [cands_chainstepEq] at he
        rcases List.mem_append.1 he with hh | ht
        · exact headcase hh
        · by_cases hb : b = p0
          · rw [if_pos hb] at ht
            by_cases hps : ps = []
            · rw [if_pos hps] at ht
              cases nx with
              | none => simp at ht
              | some c =>
                replace ht : e ∈ cands mp ts c s' (n0 + 1) := ht
                obtain ⟨k', hk', hn, hf⟩ := ih c (n0 + 1) e ht
                refine ⟨k' + 1, by simp [hk'], by omega, ?_⟩
                rw [List.take_succ_cons, findPrio_chainstepEq, if_pos hb, if_pos hps]
                exact hf
            · rw [if_neg hps] at ht
              obtain ⟨k', hk', hn, hf⟩ := ih _ (n0 + 1) e ht
              refine ⟨k' + 1, by simp [hk'], by omega, ?_⟩
              rw [List.take_succ_cons, findPrio_chainstepEq, if_pos hb, if_neg hps]
              exact hf
          · rw [if_neg hb] at ht
            simp at ht

/-- Conversely, the stored binding of every prefix of `s` appears among the
walk candidates. -/
theorem cands_complete (mp : Nat → Nat) (ts : Nat) :
    ∀ (s : Bytes) (t : TrieNode) (n0 k : Nat) (v : Bytes) (p : Nat),
      k ≤ s.length → findPrio mp ts t (s.take k) = some (v, p) →
      (v, n0 + k, p) ∈ cands mp ts t s n0 := by
  intro s
  induction s with
  | nil =>
    intro t n0 k v p hk hf
    cases t with | mk v' p' pre nx tbl =>
    rw [List.take_nil, findPrio_nilEq] at hf
    by_cases hp : p' = 0
    · rw [if_neg (by omega : ¬(p' ≠ 0))] at hf
      cases hf
    · rw [if_pos hp] at hf
      injection hf with hf
      injection hf with hf1 hf2
      subst hf1; subst hf2
      have hk0 : k = 0 := by simpa using hk
      subst hk0
      rw [cands_nilEq, if_pos hp]
      simp
  | cons b s' ih =>
    intro t n0 k v p hk hf
    cases t with | mk v' p' pre nx tbl =>
    cases k with
    | zero =>
      rw [List.take_zero, findPrio_nilEq] at hf
      by_cases hp : p' = 0
      · rw [if_neg (by omega : ¬(p' ≠ 0))] at hf
        cases hf
      · rw [if_pos hp] at hf
        injection hf with hf
        injection hf with hf1 hf2
        have hhead : (v, n0 + 0, p) ∈ (if p' ≠ 0 then [(v', n0 + 0, p')] else []) := by
          rw [if_pos hp, hf1, hf2]
          simp
        cases tbl with
        | some l =>
          rw [cands_tableEq]
          exact List.mem_append.2 (Or.inl hhead)
        | none =>
          cases pre with
          | nil => rw [cands_flatEq]; exact hhead
          | cons p0 ps =>
            rw [cands_chainstepEq]
            exact List.mem_append.2 (Or.inl hhead)
    | succ k' =>
      have hk' : k' ≤ s'.length := by simpa using hk
      rw [List.take_succ_cons] at hf
      cases tbl with
      | some l =>
        rw [findPrio_tableEq] at hf
        by_cases hts : mp b = ts
        · rw [if_pos hts] at hf; cases hf
        · rw [if_neg hts] at hf
          cases hc : l.getD (mp b) none with
          | none => rw [hc] at hf; cases hf
          | some c =>
            rw [hc] at hf
            replace hf : findPrio mp ts c (s'.take k') = some (v, p) := hf
            have := ih c (n0 + 1) k' v p hk' hf
            rw [cands_tableEq]
            refine List.mem_append.2 (Or.inr ?_)
            rw [if_neg hts, hc]
            show (v, n0 + (k' + 1), p) ∈ cands mp ts c s' (n0 + 1)
            rw [show n0 + (k' + 1) = (n0 + 1) + k' by omega]
            exact this
      | none =>
        cases pre with
        | nil => rw [findPrio_flatEq] at hf; cases hf
        | cons p0 ps =>
          rw [findPrio_chainstepEq] at hf
          by_cases hb : b = p0
          · rw [if_pos hb] at hf
            by_cases hps : ps = []
            · rw [if_pos hps] at hf
              cases nx with
              | none => cases hf
              | some c =>
                replace hf : findPrio mp ts c (s'.take k') = some (v, p) := hf
                have := ih c (n0 + 1) k' v p hk' hf
                rw [cands_chainstepEq]
                refine List.mem_append.2 (Or.inr ?_)
                rw [if_pos hb, if_pos hps]
                show (v, n0 + (k' + 1), p) ∈ cands mp ts c s' (n0 + 1)
                rw [show n0 + (k' + 1) = (n0 + 1) + k' by omega]
                exact this
            · rw [if_neg hps] at hf
              have := ih _ (n0 + 1) k' v p hk' hf
              rw [cands_chainstepEq]
              refine List.mem_append.2 (Or.inr ?_)
              rw [if_pos hb, if_neg hps]
              rw [show n0 + (k' + 1) = (n0 + 1) + k' by omega]
              exact this
          · rw [if_neg hb] at hf; cases hf

theorem foldl_stepBest_stay : ∀ (l : List (Bytes × Nat × Nat)) (q : Bytes × Nat × Bool × Nat),
    (∀ e ∈ l, e.2.2 ≤ q.2.2.2) → List.foldl stepBest q l = q := by
  intro l
  induction l with
  | nil => intro q _; rfl
  | cons e rest ih =>
    intro q h
    rw [List.foldl_cons]
    have he : stepBest q e = q := by
      unfold stepBest
      rw [if_neg (by have := h e (by simp); omega)]
    rw [he]
    exact ih q (fun x hx => h x (by simp [hx]))

theorem foldl_stepBest_max : ∀ (l : List (Bytes × Nat × Nat)) (q : Bytes × Nat × Bool × Nat)
    (x : Bytes × Nat × Nat), x ∈ l →
    (∀ y ∈ l, y.2.2 ≤ x.2.2 ∧ (y.2.2 = x.2.2 → y = x)) →
    q.2.2.2 < x.2.2 → List.foldl stepBest q l = (x.1, x.2.1, true, x.2.2) := by
  intro l
  induction l with
  | nil => intro q x hx; simp at hx
  | cons e rest ih =>
    intro q x hx hmax hlt
    rw [List.foldl_cons]
    by_cases hex : e = x
    · subst hex
      have hs : stepBest q e = (e.1, e.2.1, true, e.2.2) := by
        unfold stepBest
        rw [if_pos hlt]
      rw [hs]
      exact foldl_stepBest_stay rest _ (fun y hy => (hmax y (by simp [hy])).1)
    · have hxrest : x ∈ rest := by
        rcases List.mem_cons.1 hx with h | h
        · exact absurd h.symm hex
        · exact h
      have helt : e.2.2 < x.2.2 := by
        have h1 := (hmax e (by simp)).1
        have h2 := (hmax e (by simp)).2
        rcases Nat.lt_or_ge e.2.2 x.2.2 with h | h
        · exact h
        · have : e.2.2 = x.2.2 := by omega
          exact absurd (h2 this) hex
      have hq' : (stepBest q e).2.2.2 < x.2.2 := by
        unfold stepBest
        split
        · exact helt
        · exact hlt
      exact ih (stepBest q e) x hxrest (fun y hy => hmax y (by simp [hy])) hq'

theorem pairsP_prio_bound : ∀ (l : List Bytes) (e : Bytes × Bytes × Nat), e ∈ pairsP l →
    2 ≤ e.2.2 ∧ e.2.2 ≤ l.length := by
  intro l
  induction l using pairsP.induct with
  | case1 old new rest ih =>
    intro e he
    simp only [pairsP, List.mem_cons] at he
    rcases he with rfl | he
    · refine ⟨by simp, by simp⟩
    · have := ih e he
      simp only [List.length_cons]
      omega
  | case2 l hl =>
    intro e he
    have hp : pairsP l = [] := by
      cases l with
      | nil => rfl
      | cons a r =>
        cases r with
        | nil => rfl
        | cons x y => exact absurd rfl (hl a x y)
    rw [hp] at he
    simp at he

theorem find?_key_agree : ∀ (L : List (Bytes × Bytes × Nat)) (f : Bytes → Bool)
    (tr : Bytes × Bytes × Nat), L.find? (fun t => f t.1) = some tr →
    L.find? (fun t => t.1 == tr.1) = some tr := by
  intro L
  induction L with
  | nil => intro f tr h; simp at h
  | cons h0 rest ih =>
    intro f tr h
    have htr : f tr.1 = true := by
      have h2 := List.find?_some h
      exact h2
    rw [List.find?_cons] at h ⊢
    cases hf : f h0.1 with
    | true =>
      rw [hf] at h
      injection h with h
      subst h
      rw [show (h0.1 == h0.1) = true by simp]
    | false =>
      rw [hf] at h
      have hne : (h0.1 == tr.1) = false := by
        rw [beq_eq_false_iff_ne]
        intro he
        rw [he, htr] at hf
        cases hf
      rw [hne]
      exact ih f tr h

theorem find?_max_prio : ∀ (l : List Bytes) (f : Bytes → Bool) (tr : Bytes × Bytes × Nat),
    (pairsP l).find? (fun t => f t.1) = some tr →
    ∀ y ∈ pairsP l, f y.1 = true → y.2.2 ≤ tr.2.2 ∧ (y.2.2 = tr.2.2 → y = tr) := by
  intro l
  induction l using pairsP.induct with
  | case1 old new rest ih =>
    intro f tr h y hy hfy
    simp only [pairsP] at h hy
    rw [List.find?_cons] at h
    cases hf : f (old, new, rest.length + 2).1 with
    | true =>
      rw [hf] at h
      injection h with h
      subst h
      rcases List.mem_cons.1 hy with rfl | hy'
      · exact ⟨Nat.le_refl _, fun _ => rfl⟩
      · have hb := pairsP_prio_bound rest y hy'
        constructor
        · simp only at hb ⊢
          omega
        · intro he
          simp only at hb he
          omega
    | false =>
      rw [hf] at h
      rcases List.mem_cons.1 hy with rfl | hy'
      · rw [hfy] at hf; cases hf
      · exact ih f tr h y hy' hfy
  | case2 l hl =>
    intro f tr h
    have hp : pairsP l = [] := by
      cases l with
      | nil => rfl
      | cons a r =>
        cases r with
        | nil => rfl
        | cons x y => exact absurd rfl (hl a x y)
    rw [hp] at h
    simp at h

theorem WF_root0 (used : Nat → Bool) (ts : Nat) :
    WF used ts (.mk [] 0 [] none (some (List.replicate ts none))) := by
  refine WF.intro [] 0 [] none _ (fun h => absurd rfl h) ?_ (fun c h => by cases h) ?_
  · intro l h
    injection h with h
    subst h
    exact List.length_replicate ts none
  · intro l h x hx c hc
    injection h with h
    subst h
    rw [List.eq_of_mem_replicate hx] at hc
    cases hc

/-- The built trie stores, for every exact key, exactly the first declared
binding for that key. -/
theorem findPrio_built (oldnew : List Bytes)
    (HB : ∀ old ∈ oldsOf oldnew, ∀ b ∈ old, b < 256) :
    ∀ k, goodLt k →
      findPrio (mappingOf oldnew) (tableSizeOf oldnew) (makeGenericReplacer oldnew).root k =
        ((pairsP oldnew).find? (fun tr => tr.1 == k)).map (fun tr => (tr.2.1, tr.2.2)) := by
  have hgoods : ∀ old ∈ oldsOf oldnew, goodKey (usedByte oldnew) old := by
    intro old ho b hb
    refine ⟨HB old ho b hb, ?_⟩
    unfold usedByte
    rw [List.any_eq_true]
    refine ⟨old, ho, ?_⟩
    simpa [List.contains] using hb
  obtain ⟨_, hspec⟩ := addPairs_spec (usedByte oldnew) (mappingOf oldnew) (tableSizeOf oldnew)
    (fun b hb => mp_dichot oldnew hb) (fun b c ub uc h => mp_inj oldnew ub uc h)
    oldnew _ (WF_root0 (usedByte oldnew) (tableSizeOf oldnew)) hgoods
  intro k hk
  rw [show (makeGenericReplacer oldnew).root =
    addPairs (mappingOf oldnew) (tableSizeOf oldnew)
      (.mk [] 0 [] none (some (List.replicate (tableSizeOf oldnew) none))) oldnew from rfl]
  rw [hspec k hk, findPrio_root0]

theorem lookup_eq_cands (g : GenericReplacer) (s : Bytes) (ir : Bool) :
    lookup g s ir = projQ (List.foldl stepBest ([], 0, false, 0)
      (cands g.mapping g.tableSize (if ir then zeroP g.root else g.root) s 0)) := by
  have h := lookupF_cands g (s.length + 1) g.root s 0 ([], 0, false, 0) true ir (by omega)
  rw [show (true && ir) = ir from by simp] at h
  exact h

/-- `findPrio` on the (possibly priority-suppressed) root of the built trie:
the first declared binding, with the empty key suppressed under
`ignoreRoot`. -/
theorem findPrio_builtR (oldnew : List Bytes) (ir : Bool)
    (HB : ∀ old ∈ oldsOf oldnew, ∀ b ∈ old, b < 256) :
    ∀ k, goodLt k →
      findPrio (mappingOf oldnew) (tableSizeOf oldnew)
        (if ir then zeroP (makeGenericReplacer oldnew).root
         else (makeGenericReplacer oldnew).root) k =
      (if ir = true ∧ k = [] then none
       else ((pairsP oldnew).find? (fun tr => tr.1 == k)).map (fun tr => (tr.2.1, tr.2.2))) := by
  intro k hk
  cases ir with
  | false =>
    rw [show (if (false : Bool) = true then zeroP (makeGenericReplacer oldnew).root
      else (makeGenericReplacer oldnew).root) = (makeGenericReplacer oldnew).root from rfl]
    rw [if_neg (by simp)]
    exact findPrio_built oldnew HB k hk
  | true =>
    rw [show (if (true : Bool) = true then zeroP (makeGenericReplacer oldnew).root
      else (makeGenericReplacer oldnew).root) = zeroP (makeGenericReplacer oldnew).root from rfl]
    cases k with
    | nil =>
      rw [if_pos ⟨rfl, rfl⟩]
      cases hroot : (makeGenericReplacer oldnew).root with
      | mk v p pre nx tbl =>
        show findPrio (mappingOf oldnew) (tableSizeOf oldnew) (.mk v 0 pre nx tbl) [] = none
        rw [findPrio_nilEq, if_neg (by omega)]
    | cons c k' =>
      rw [if_neg (by simp)]
      cases hroot : (makeGenericReplacer oldnew).root with
      | mk v p pre nx tbl =>
        have h1 : findPrio (mappingOf oldnew) (tableSizeOf oldnew)
            (zeroP (.mk v p pre nx tbl)) (c :: k') =
            findPrio (mappingOf oldnew) (tableSizeOf oldnew) (.mk v p pre nx tbl) (c :: k') :=
          findPrio_cons_ext _ _ v v 0 p pre nx tbl c k'
        rw [h1, ← hroot]
        exact findPrio_built oldnew HB (c :: k') hk

/-- Correctness of `genericReplacer.lookup` over the built trie: it returns
exactly the spec-level earliest-declared prefix match. -/
theorem lookup_spec (oldnew : List Bytes) (s : Bytes) (ir : Bool)
    (HB : ∀ old ∈ oldsOf oldnew, ∀ b ∈ old, b < 256)
    (HS : ∀ b ∈ s, b < 256) :
    lookup (makeGenericReplacer oldnew) s ir = toTriple (specMatch oldnew s ir) := by
  rw [lookup_eq_cands]
  have hmp : (makeGenericReplacer oldnew).mapping = mappingOf oldnew := rfl
  have hts : (makeGenericReplacer oldnew).tableSize = tableSizeOf oldnew := rfl
  rw [hmp, hts]
  -- every candidate of the walk corresponds to an eligible declared triple
  have hcand : ∀ y ∈ cands (mappingOf oldnew) (tableSizeOf oldnew)
      (if ir then zeroP (makeGenericReplacer oldnew).root
       else (makeGenericReplacer oldnew).root) s 0,
      ∃ ty k, k ≤ s.length ∧ ty ∈ pairsP oldnew ∧ specPred s ir ty.1 = true ∧
        ty.1 = s.take k ∧ y = (ty.2.1, 0 + k, ty.2.2) ∧
        (pairsP oldnew).find? (fun tr => tr.1 == ty.1) = some ty := by
    intro y hy
    obtain ⟨k, hk, hn, hf⟩ := cands_mem _ _ s _ 0 y hy
    have hgood : goodLt (s.take k) := fun b hb => HS b (List.take_subset k s hb)
    rw [findPrio_builtR oldnew ir HB (s.take k) hgood] at hf
    by_cases hcond : ir = true ∧ s.take k = []
    · rw [if_pos hcond] at hf
      cases hf
    · rw [if_neg hcond] at hf
      rw [Option.map_eq_some'] at hf
      obtain ⟨ty, hty, htyv⟩ := hf
      have htyk : ty.1 = s.take k := by
        have h2 := List.find?_some hty
        exact beq_iff_eq.1 h2
      have htymem : ty ∈ pairsP oldnew := List.mem_of_find?_eq_some hty
      have hpred : specPred s ir ty.1 = true := by
        unfold specPred
        rw [Bool.and_eq_true]
        constructor
        · rw [htyk]
          exact hasPref_of_take s k hk
        · cases hir : ir with
          | false => rfl
          | true =>
            have hne : s.take k ≠ [] := fun he => hcond ⟨hir, he⟩
            rw [Bool.or_eq_true]
            refine Or.inr ?_
            rw [htyk]
            cases hkl : s.take k with
            | nil => exact absurd hkl hne
            | cons a as => rfl
      refine ⟨ty, k, hk, htymem, hpred, htyk, ?_, htyk ▸ hty⟩
      have h3 : (ty.2.1, ty.2.2) = (y.1, y.2.2) := htyv
      have hy1 : ty.2.1 = y.1 := congrArg Prod.fst h3
      have hy2 : ty.2.2 = y.2.2 := congrArg Prod.snd h3
      have h4 : y = (y.1, y.2.1, y.2.2) := rfl
      rw [h4, ← hy1, ← hy2, hn]
  cases hsp : specMatchT oldnew s ir with
  | none =>
    have hnone : ∀ y ∈ pairsP oldnew, ¬ specPred s ir y.1 = true := by
      intro y hy
      have := List.find?_eq_none.1 hsp y hy
      simpa using this
    have hempty : cands (mappingOf oldnew) (tableSizeOf oldnew)
        (if ir then zeroP (makeGenericReplacer oldnew).root
         else (makeGenericReplacer oldnew).root) s 0 = [] := by
      rw [List.eq_nil_iff_forall_not_mem]
      intro y hy
      obtain ⟨ty, k, _, htymem, hpred, _, _, _⟩ := hcand y hy
      exact hnone ty htymem hpred
    rw [hempty]
    simp only [List.foldl_nil]
    rw [show specMatch oldnew s ir = none from by rw [specMatch, hsp]; rfl]
    rfl
  | some tr =>
    have htrpred : specPred s ir tr.1 = true := by
      have h2 := List.find?_some hsp
      exact h2
    have htrmem : tr ∈ pairsP oldnew := List.mem_of_find?_eq_some hsp
    have htrsplit : hasPref tr.1 s = true ∧ (!ir || !tr.1.isEmpty) = true := by
      have h2 := htrpred
      unfold specPred at h2
      rw [Bool.and_eq_true] at h2
      exact h2
    have htrpref : hasPref tr.1 s = true := htrsplit.1
    have htrk : tr.1.length ≤ s.length := hasPref_length_le _ _ htrpref
    have htrtake : s.take tr.1.length = tr.1 := hasPref_take _ _ htrpref
    have htrfirst : (pairsP oldnew).find? (fun t => t.1 == tr.1) = some tr :=
      find?_key_agree (pairsP oldnew) (specPred s ir) tr hsp
    have htrprio := pairsP_prio_bound oldnew tr htrmem
    -- the winning candidate
    have hxmem : (tr.2.1, 0 + tr.1.length, tr.2.2) ∈
        cands (mappingOf oldnew) (tableSizeOf oldnew)
          (if ir then zeroP (makeGenericReplacer oldnew).root
           else (makeGenericReplacer oldnew).root) s 0 := by
      apply cands_complete
      · exact htrk
      · rw [htrtake, findPrio_builtR oldnew ir HB tr.1
          (fun b hb => HS b (by rw [← htrtake] at hb; exact List.take_subset _ s hb))]
        have hcond : ¬(ir = true ∧ tr.1 = []) := by
          rintro ⟨hir, hemp⟩
          have h5 := htrsplit.2
          rw [hir, hemp] at h5
          simp at h5
        rw [if_neg hcond, htrfirst]
        rfl
    have hmax : ∀ y ∈ cands (mappingOf oldnew) (tableSizeOf oldnew)
        (if ir then zeroP (makeGenericReplacer oldnew).root
         else (makeGenericReplacer oldnew).root) s 0,
        y.2.2 ≤ (tr.2.1, 0 + tr.1.length, tr.2.2).2.2 ∧
        (y.2.2 = (tr.2.1, 0 + tr.1.length, tr.2.2).2.2 → y = (tr.2.1, 0 + tr.1.length, tr.2.2)) := by
      intro y hy
      obtain ⟨ty, k, hk, htymem, hpred, htyk, hyform, htyfirst⟩ := hcand y hy
      have hbound := find?_max_prio oldnew (specPred s ir) tr hsp ty htymem hpred
      constructor
      · rw [hyform]
        exact hbound.1
      · intro he
        rw [hyform] at he ⊢
        simp only at he
        have hty_eq : ty = tr := hbound.2 he
        have hklen : k = tr.1.length := by
          have h1 : (s.take k).length = k := by
            rw [List.length_take]
            omega
          have h2 : tr.1 = s.take k := by
            rw [← hty_eq]
            exact htyk
          rw [h2, h1]
        rw [hty_eq, hklen]
    rw [foldl_stepBest_max _ _ _ hxmem hmax
      (by simp only; omega : (([] : Bytes), 0, false, 0).2.2.2 < (tr.2.1, 0 + tr.1.length, tr.2.2).2.2)]
    rw [show specMatch oldnew s ir = some (tr.2.1, tr.1.length) from by
      rw [specMatch, hsp]; rfl]
    simp [projQ, toTriple]

/-! ### Claim C8: odd argument count -/

/-- C8: constructing a replacer from a flat argument list of odd length
panics (modelled as `none`) before any matcher is produced, and an
even-length list (including the empty one) never does. -/
theorem c8_odd_length_is_construction_panic (oldnew : List Bytes) :
    (New oldnew).isNone = (oldnew.length % 2 == 1) := by
  unfold New
  by_cases h : oldnew.length % 2 = 1
  · rw [if_pos h]
    simp [h]
  · rw [if_neg h]
    have h2 : (oldnew.length % 2 == 1) = false := by
      rw [beq_eq_false_iff_ne]
      exact h
    rw [h2]
    split
    · split <;> rfl
    · rfl

/-! ### Claim C1: earliest-declared pattern wins at every scan position -/

/-- C1: at every scan position, `lookup` returns exactly the
earliest-declared pattern among all declared patterns that are prefixes of
the remaining input, independent of pattern length (with the empty pattern
skipped when `ignoreRoot` is set); in particular the table
`[("a","X"), ("ab","Y")]` applied to `"ab"` yields `"Xb"` and the reversed
table yields `"Y"` (bytes: a=97 b=98 X=88 Y=89). -/
theorem c1_earliest_declared_pattern_wins :
    (∀ (oldnew : List Bytes) (s : Bytes) (ir : Bool),
      (∀ old ∈ oldsOf oldnew, ∀ b ∈ old, b < 256) → (∀ b ∈ s, b < 256) →
      lookup (makeGenericReplacer oldnew) s ir = toTriple (specMatch oldnew s ir)) ∧
    ReplaceTop [[97], [88], [97, 98], [89]] [97, 98] = some [88, 98] ∧
    ReplaceTop [[97, 98], [89], [97], [88]] [97, 98] = some [89] :=
  ⟨fun oldnew s ir HB HS => lookup_spec oldnew s ir HB HS, by decide, by decide⟩

/-- Witness for C1 at a concrete table and input. -/
theorem c1_earliest_declared_pattern_wins_witness :
    ((∀ old ∈ oldsOf [[97], [88], [97, 98], [89]], ∀ b ∈ old, b < 256) ∧
      (∀ b ∈ [97, 98], b < 256)) ∧
    lookup (makeGenericReplacer [[97], [88], [97, 98], [89]]) [97, 98] false =
      toTriple (specMatch [[97], [88], [97, 98], [89]] [97, 98] false) :=
  ⟨⟨by decide, by decide⟩,
    c1_earliest_declared_pattern_wins.1 [[97], [88], [97, 98], [89]] [97, 98] false
      (by decide) (by decide)⟩

/-! ### Structural facts about `lookup` results -/

theorem foldl_stepBest_cases : ∀ (l : List (Bytes × Nat × Nat)) (q : Bytes × Nat × Bool × Nat),
    List.foldl stepBest q l = q ∨
    ∃ e ∈ l, List.foldl stepBest q l = (e.1, e.2.1, true, e.2.2) := by
  intro l
  induction l with
  | nil => intro q; exact Or.inl rfl
  | cons e rest ih =>
    intro q
    rw [List.foldl_cons]
    rcases ih (stepBest q e) with h | ⟨e', he', h⟩
    · rw [h]
      unfold stepBest
      split
      · exact Or.inr ⟨e, by simp, rfl⟩
      · exact Or.inl rfl
    · exact Or.inr ⟨e', by simp [he'], h⟩

theorem drop_eq_getD_cons (s : Bytes) (i : Nat) (h : i < s.length) :
    s.drop i = s.getD i 0 :: s.drop (i + 1) := by
  rw [List.drop_eq_getElem_cons h]
  congr 1
  rw [List.getD_eq_getElem s 0 h]

theorem lookup_keylen_le (g : GenericReplacer) (s : Bytes) (ir : Bool)
    (hf : (lookup g s ir).2.2 = true) : (lookup g s ir).2.1 ≤ s.length := by
  rw [lookup_eq_cands] at hf ⊢
  rcases foldl_stepBest_cases
    (cands g.mapping g.tableSize (if ir then zeroP g.root else g.root) s 0)
    ([], 0, false, 0) with h | ⟨e, he, h⟩
  · rw [h] at hf
    cases hf
  · rw [h]
    obtain ⟨k, hk, hn, _⟩ := cands_mem g.mapping g.tableSize s _ 0 e he
    show e.2.1 ≤ s.length
    omega

theorem lookup_empty_match (g : GenericReplacer) (s : Bytes) (ir : Bool)
    (hf : (lookup g s ir).2.2 = true) (hk : (lookup g s ir).2.1 = 0) :
    ir = false ∧ g.root.priority ≠ 0 := by
  rw [lookup_eq_cands] at hf hk
  rcases foldl_stepBest_cases
    (cands g.mapping g.tableSize (if ir then zeroP g.root else g.root) s 0)
    ([], 0, false, 0) with h | ⟨e, he, h⟩
  · rw [h] at hf
    cases hf
  · rw [h] at hk
    obtain ⟨k, _, hn, hfp⟩ := cands_mem g.mapping g.tableSize s _ 0 e he
    have hk0 : k = 0 := by
      have : e.2.1 = 0 := hk
      omega
    subst hk0
    rw [List.take_zero] at hfp
    cases hg : g.root with
    | mk v p pre nx tbl =>
      cases ir with
      | true =>
        rw [if_pos rfl, hg] at hfp
        have : findPrio g.mapping g.tableSize (.mk v 0 pre nx tbl) [] = some (e.1, e.2.2) := hfp
        rw [findPrio_nilEq, if_neg (by omega)] at this
        cases this
      | false =>
        rw [if_neg (by simp), hg] at hfp
        rw [findPrio_nilEq] at hfp
        refine ⟨rfl, ?_⟩
        simp only [priority_mk]
        intro hp
        rw [if_neg (by omega)] at hfp
        cases hfp

theorem fastSkip_spec (g : GenericReplacer) (s : Bytes) (i : Nat) :
    fastSkip g s i = true ↔ (i ≠ s.length ∧ g.root.priority = 0 ∧
      (g.mapping (s.getD i 0) = g.tableSize ∨
       ((g.root.table.getD []).getD (g.mapping (s.getD i 0)) none) = none)) := by
  unfold fastSkip
  rw [Bool.and_eq_true, Bool.and_eq_true, Bool.or_eq_true, Option.isNone_iff_eq_none]
  simp only [decide_eq_true_eq]
  tauto

/-- If the fast-path test fires, `lookup` at that position finds nothing. -/
theorem fastSkip_lookup_false (g : GenericReplacer) (l : List (Option TrieNode))
    (ht : g.root.table = some l) (s : Bytes) (i : Nat) (hlt : i < s.length)
    (hprio : g.root.priority = 0)
    (hcond : g.mapping (s.getD i 0) = g.tableSize ∨ (l.getD (g.mapping (s.getD i 0)) none) = none) :
    (lookup g (s.drop i) false).2.2 = false := by
  cases hg : g.root with
  | mk v p pre nx tbl =>
    rw [hg] at ht hprio
    simp only [table_mk, priority_mk] at ht hprio
    subst ht
    subst hprio
    rw [drop_eq_getD_cons s i hlt]
    unfold lookup
    rw [hg]
    rw [lookupF_tableEq]
    rcases hcond with hc | hc
    · rw [if_pos hc]
      rw [if_neg (by omega)]
    · by_cases hts : g.mapping (s.getD i 0) = g.tableSize
      · rw [if_pos hts, if_neg (by omega)]
      · rw [if_neg hts, hc, lookupF_noneEq, if_neg (by omega)]

/-! ### Shape of the built root, and the scanner described by the spec -/

theorem addF_shape (mp : Nat → Nat) (ts : Nat) :
    ∀ (fuel : Nat) (t : TrieNode) (key val : Bytes) (prio : Nat),
      t.pre = [] → (∃ l, t.table = some l) →
      ((addF mp ts fuel t key val prio).pre = [] ∧
       ∃ l', (addF mp ts fuel t key val prio).table = some l') := by
  intro fuel t key val prio hp ⟨l, hl⟩
  cases t with
  | mk v p pre nx tbl =>
    simp only [pre_mk, table_mk] at hp hl
    subst hp
    subst hl
    cases fuel with
    | zero => exact ⟨rfl, l, rfl⟩
    | succ fuel =>
      cases key with
      | nil =>
        rw [addF_nil]
        split <;> exact ⟨rfl, l, rfl⟩
      | cons b ks =>
        rw [addF_table]
        exact ⟨rfl, _, rfl⟩

theorem addPairs_shape (mp : Nat → Nat) (ts : Nat) :
    ∀ (l : List Bytes) (t : TrieNode), t.pre = [] → (∃ tl, t.table = some tl) →
      ((addPairs mp ts t l).pre = [] ∧ ∃ tl', (addPairs mp ts t l).table = some tl') := by
  intro l
  induction l using pairsP.induct with
  | case1 old new rest ih =>
    intro t hp htl
    simp only [addPairs]
    obtain ⟨h1, h2⟩ := addF_shape mp ts (old.length + 1) t old new (rest.length + 2) hp htl
    exact ih _ h1 h2
  | case2 l hl =>
    intro t hp htl
    have ha : addPairs mp ts t l = t := by
      cases l with
      | nil => rfl
      | cons a r =>
        cases r with
        | nil => rfl
        | cons x y => exact absurd rfl (hl a x y)
    rw [ha]
    exact ⟨hp, htl⟩

theorem rootShape_built (oldnew : List Bytes) :
    (makeGenericReplacer oldnew).root.pre = [] ∧
    ∃ l, (makeGenericReplacer oldnew).root.table = some l := by
  exact addPairs_shape (mappingOf oldnew) (tableSizeOf oldnew) oldnew
    (.mk [] 0 [] none (some (List.replicate (tableSizeOf oldnew) none)))
    rfl ⟨_, rfl⟩

/-- The scanner exactly as the specification words it: at each position try
the best match; on a match emit the replacement and advance by the consumed
length (suppressing an immediately repeated empty match); otherwise emit the
current byte and advance by one. -/
def scanSpecF (g : GenericReplacer) (s : Bytes) : Nat → Nat → Bool → Bytes
  | 0, _, _ => []
  | fuel + 1, i, pme =>
    if i ≤ s.length then
      if (lookup g (s.drop i) pme).2.2 then
        (lookup g (s.drop i) pme).1 ++
          scanSpecF g s fuel (i + (lookup g (s.drop i) pme).2.1)
            ((lookup g (s.drop i) pme).2.1 == 0)
      else (if i < s.length then [s.getD i 0] else []) ++ scanSpecF g s fuel (i + 1) false
    else []

/-- The spec-side scanner with sufficient fuel. -/
def scanSpec (g : GenericReplacer) (s : Bytes) : Bytes :=
  scanSpecF g s (2 * s.length + 4) 0 false

theorem gWriteLoop_buf_step (g : GenericReplacer) (s : Bytes) (fuel : Nat) (buf : Bytes)
    (i last n : Nat) (pme : Bool) (tr : List (Nat × Bytes × Nat)) :
    gWriteLoop g bufWr s (fuel + 1) buf i last n pme tr =
      if i ≤ s.length then
        if fastSkip g s i then gWriteLoop g bufWr s fuel buf (i + 1) last n pme tr
        else
          if (lookup g (s.drop i) pme).2.2 then
            gWriteLoop g bufWr s fuel
              (buf ++ (s.drop last).take (i - last) ++ (lookup g (s.drop i) pme).1)
              (i + (lookup g (s.drop i) pme).2.1) (i + (lookup g (s.drop i) pme).2.1)
              (n + ((s.drop last).take (i - last)).length + (lookup g (s.drop i) pme).1.length)
              ((lookup g (s.drop i) pme).2.2 && (lookup g (s.drop i) pme).2.1 == 0)
              (tr ++ [(i, (lookup g (s.drop i) pme).1, (lookup g (s.drop i) pme).2.1)])
          else gWriteLoop g bufWr s fuel buf (i + 1) last n
            ((lookup g (s.drop i) pme).2.2 && (lookup g (s.drop i) pme).2.1 == 0) tr
      else
        if last ≠ s.length then
          (n + (s.drop last).length, none, buf ++ s.drop last, tr)
        else (n, none, buf, tr) := rfl

theorem seg_extend (s : Bytes) (last i : Nat) (h1 : last ≤ i) (h2 : i ≤ s.length) :
    (s.drop last).take (i + 1 - last) =
      (s.drop last).take (i - last) ++ (if i < s.length then [s.getD i 0] else []) := by
  by_cases hlt : i < s.length
  · rw [if_pos hlt]
    rw [show i + 1 - last = (i - last) + 1 by omega]
    rw [List.take_succ]
    congr 1
    rw [List.getElem?_drop]
    rw [show last + (i - last) = i by omega]
    rw [List.getElem?_eq_getElem hlt]
    simp only [Option.toList_some]
    rw [List.getD_eq_getElem s 0 hlt]
  · rw [if_neg hlt]
    have hieq : i = s.length := by omega
    subst hieq
    rw [List.append_nil]
    have hlen : (s.drop last).length = s.length - last := List.length_drop last s
    rw [List.take_of_length_le (by omega), List.take_of_length_le (by omega)]

/-- Buffered `Write` produces exactly the output of the spec-side scanner. -/
theorem gWriteLoop_scan (g : GenericReplacer) (l0 : List (Option TrieNode))
    (ht : g.root.table = some l0) (s : Bytes) :
    ∀ (fuel : Nat) (buf : Bytes) (i last n : Nat) (pme : Bool) (tr : List (Nat × Bytes × Nat)),
      last ≤ i → i ≤ s.length + 1 → last ≤ s.length →
      (pme = true → g.root.priority ≠ 0) →
      2 * (s.length + 1 - i) + (if pme then 0 else 1) + 1 ≤ fuel →
      (gWriteLoop g bufWr s fuel buf i last n pme tr).2.2.1 =
        buf ++ (s.drop last).take (i - last) ++ scanSpecF g s fuel i pme := by
  intro fuel
  induction fuel with
  | zero =>
    intro buf i last n pme tr _ _ _ _ hM
    omega
  | succ fuel ih =>
    intro buf i last n pme tr hli hil hlast hpmeInv hM
    by_cases hil2 : i ≤ s.length
    · rw [gWriteLoop_buf_step, if_pos hil2]
      rw [show scanSpecF g s (fuel + 1) i pme =
        if (lookup g (s.drop i) pme).2.2 then
          (lookup g (s.drop i) pme).1 ++
            scanSpecF g s fuel (i + (lookup g (s.drop i) pme).2.1)
              ((lookup g (s.drop i) pme).2.1 == 0)
        else (if i < s.length then [s.getD i 0] else []) ++ scanSpecF g s fuel (i + 1) false
        from by rw [scanSpecF]; rw [if_pos hil2]]
      by_cases hfs : fastSkip g s i = true
      · rw [if_pos hfs]
        have hspec := (fastSkip_spec g s i).1 hfs
        have hlt : i < s.length := by
          rcases Nat.lt_or_ge i s.length with h | h
          · exact h
          · exact absurd (by omega) hspec.1
        have hprio : g.root.priority = 0 := hspec.2.1
        have hpmef : pme = false := by
          cases hpme : pme with
          | false => rfl
          | true => exact absurd hprio (hpmeInv hpme)
        subst hpmef
        have hcond : g.mapping (s.getD i 0) = g.tableSize ∨
            l0.getD (g.mapping (s.getD i 0)) none = none := by
          rcases hspec.2.2 with h | h
          · exact Or.inl h
          · refine Or.inr ?_
            rw [ht] at h
            simpa using h
        have hlf : (lookup g (s.drop i) false).2.2 = false :=
          fastSkip_lookup_false g l0 ht s i hlt hprio hcond
        rw [hlf]
        simp only [Bool.false_eq_true, if_false]
        rw [ih buf (i + 1) last n false tr (by omega) (by omega) hlast
          (fun h => by cases h) (by omega)]
        rw [if_pos hlt, show i + 1 - last = (i - last) + 1 by omega]
        rw [show (i - last) + 1 = i + 1 - last by omega,
          seg_extend s last i hli (by omega), if_pos hlt]
        simp [List.append_assoc]
      · rw [if_neg hfs]
        by_cases hm : (lookup g (s.drop i) pme).2.2 = true
        · rw [if_pos hm, if_pos hm]
          have hkle : (lookup g (s.drop i) pme).2.1 ≤ (s.drop i).length :=
            lookup_keylen_le g (s.drop i) pme hm
          rw [List.length_drop] at hkle
          have hikle : i + (lookup g (s.drop i) pme).2.1 ≤ s.length := by omega
          have hk0pme : (lookup g (s.drop i) pme).2.1 = 0 → pme = false := fun h0 =>
            (lookup_empty_match g (s.drop i) pme hm h0).1
          have hpme' : ((lookup g (s.drop i) pme).2.2 && (lookup g (s.drop i) pme).2.1 == 0)
              = true → g.root.priority ≠ 0 := by
            intro hq
            rw [Bool.and_eq_true, beq_iff_eq] at hq
            exact (lookup_empty_match g (s.drop i) pme hq.1 hq.2).2
          have hMd : 2 * (s.length + 1 - (i + (lookup g (s.drop i) pme).2.1)) +
              (if ((lookup g (s.drop i) pme).2.2 && (lookup g (s.drop i) pme).2.1 == 0)
               then 0 else 1) + 1 ≤ fuel := by
            by_cases hk0 : (lookup g (s.drop i) pme).2.1 = 0
            · have hpf := hk0pme hk0
              rw [hpf] at hM
              simp only [hk0, hm, beq_self_eq_true, Bool.true_and, if_true,
                Bool.false_eq_true, if_false] at hM ⊢
              omega
            · have hif : (if ((lookup g (s.drop i) pme).2.2 &&
                  (lookup g (s.drop i) pme).2.1 == 0) = true then (0:Nat) else 1) = 1 := by
                rw [if_neg]
                rw [Bool.and_eq_true, beq_iff_eq]
                rintro ⟨_, hc⟩
                exact hk0 hc
              rw [hif]
              have h1 : 1 ≤ (lookup g (s.drop i) pme).2.1 := by omega
              have hkle2 : (lookup g (s.drop i) pme).2.1 ≤ s.length - i := hkle
              generalize (lookup g (s.drop i) pme).2.1 = K at h1 hkle2 ⊢
              cases hpme2 : pme <;> rw [hpme2] at hM <;>
                simp only [if_true, Bool.false_eq_true, if_false] at hM <;> omega
          rw [ih _ (i + (lookup g (s.drop i) pme).2.1) (i + (lookup g (s.drop i) pme).2.1) _
            _ _ (Nat.le_refl _) (by omega) hikle hpme' hMd]
          rw [Nat.sub_self, List.take_zero, List.append_nil]
          rw [show ((lookup g (s.drop i) pme).2.2 && (lookup g (s.drop i) pme).2.1 == 0)
            = ((lookup g (s.drop i) pme).2.1 == 0) from by rw [hm, Bool.true_and]]
          simp [List.append_assoc]
        · rw [if_neg hm, if_neg hm]
          have hmf : (lookup g (s.drop i) pme).2.2 = false := by
            rw [← Bool.not_eq_true]
            exact hm
          have hpme'' : ((lookup g (s.drop i) pme).2.2 &&
              (lookup g (s.drop i) pme).2.1 == 0) = false := by
            rw [hmf, Bool.false_and]
          rw [hpme'']
          rw [ih buf (i + 1) last n false tr (by omega) (by omega) hlast
            (fun h => by cases h) ?_]
          · rw [show i + 1 - last = (i - last) + 1 by omega,
              show (i - last) + 1 = i + 1 - last by omega,
              seg_extend s last i hli (by omega)]
            simp [List.append_assoc]
          · cases hpme2 : pme <;> rw [hpme2] at hM <;>
              simp only [if_true, Bool.false_eq_true, if_false] at hM ⊢ <;> omega
    · rw [gWriteLoop_buf_step, if_neg hil2]
      rw [show scanSpecF g s (fuel + 1) i pme = [] from by rw [scanSpecF, if_neg hil2]]
      rw [List.append_nil]
      have hseg : (s.drop last).take (i - last) = s.drop last := by
        apply List.take_of_length_le
        rw [List.length_drop]
        omega
      rw [hseg]
      by_cases hl : last = s.length
      · rw [if_neg (by omega : ¬ last ≠ s.length)]
        subst hl
        rw [List.drop_length, List.append_nil]
      · rw [if_pos hl]

/-! ### Claim C6: match consumes, no re-scан of output -/

/-- Buffered `genericReplacer.Write` over a built replacer produces exactly
the output of the position-by-position scanner `scanSpec`. -/
theorem gWrite_buf_scanSpec (oldnew : List Bytes) (s : Bytes) :
    (gWrite (makeGenericReplacer oldnew) bufWr ([] : Bytes) s).2.2 =
      scanSpec (makeGenericReplacer oldnew) s := by
  obtain ⟨_, l0, ht⟩ := rootShape_built oldnew
  have h := gWriteLoop_scan (makeGenericReplacer oldnew) l0 ht s (2 * s.length + 4)
    [] 0 0 0 false [] (Nat.le_refl 0) (by omega) (by omega) (fun h => by cases h)
    (by simp; omega)
  show (gWriteLoop (makeGenericReplacer oldnew) bufWr s (2 * s.length + 4)
    [] 0 0 0 false []).2.2.1 = scanSpec (makeGenericReplacer oldnew) s
  rw [h]
  simp [scanSpec]

/-- C6: the scanner emits, at each position, either the looked-up
replacement — advancing by the number of consumed bytes, so consumed input
is never re-entered and emitted replacement text is never re-scanned — or
the current literal byte, advancing by one: buffered `Write` equals the
spec-side scanner `scanSpec`, and table `[("aaa","b")]` applied to `"aaaa"`
yields `"ba"` (bytes: a=97 b=98). -/
theorem c6_scan_advances_past_consumed :
    (∀ (oldnew : List Bytes) (s : Bytes),
      (gWrite (makeGenericReplacer oldnew) bufWr ([] : Bytes) s).2.2 =
        scanSpec (makeGenericReplacer oldnew) s) ∧
    ReplaceTop [[97, 97, 97], [98]] [97, 97, 97, 97] = some [98, 97] :=
  ⟨fun oldnew s => gWrite_buf_scanSpec oldnew s, by decide⟩

/-! ### No-match runs copy the input -/

theorem hasMatchF_step (g : GenericReplacer) (s : Bytes) (fuel i : Nat) :
    hasMatchF g s (fuel + 1) i =
      if i ≤ s.length then
        if fastSkip g s i then hasMatchF g s fuel (i + 1)
        else if (lookup g (s.drop i) false).2.2 then true
        else hasMatchF g s fuel (i + 1)
      else false := rfl

theorem hasMatchF_false_lookup (g : GenericReplacer) (l0 : List (Option TrieNode))
    (ht : g.root.table = some l0) (s : Bytes) :
    ∀ (fuel i : Nat), hasMatchF g s fuel i = false → s.length + 2 ≤ fuel + i →
      ∀ j, i ≤ j → j ≤ s.length → (lookup g (s.drop j) false).2.2 = false := by
  intro fuel
  induction fuel with
  | zero =>
    intro i _ hfi j hij hjl
    omega
  | succ fuel ih =>
    intro i hmf hfi j hij hjl
    rw [hasMatchF_step] at hmf
    by_cases hil : i ≤ s.length
    · rw [if_pos hil] at hmf
      by_cases hfs : fastSkip g s i = true
      · rw [if_pos hfs] at hmf
        by_cases hji : j = i
        · subst hji
          have hspec := (fastSkip_spec g s j).1 hfs
          have hlt : j < s.length := by
            rcases Nat.lt_or_ge j s.length with h | h
            · exact h
            · exact absurd (by omega) hspec.1
          refine fastSkip_lookup_false g l0 ht s j hlt hspec.2.1 ?_
          rcases hspec.2.2 with h | h
          · exact Or.inl h
          · refine Or.inr ?_
            rw [ht] at h
            simpa using h
        · exact ih (i + 1) hmf (by omega) j (by omega) hjl
      · rw [if_neg hfs] at hmf
        by_cases hlk : (lookup g (s.drop i) false).2.2 = true
        · rw [if_pos hlk] at hmf
          cases hmf
        · rw [if_neg hlk] at hmf
          by_cases hji : j = i
          · subst hji
            rw [← Bool.not_eq_true]
            exact hlk
          · exact ih (i + 1) hmf (by omega) j (by omega) hjl
    · omega

theorem scanSpecF_step (g : GenericReplacer) (s : Bytes) (fuel i : Nat) (pme : Bool) :
    scanSpecF g s (fuel + 1) i pme =
      if i ≤ s.length then
        if (lookup g (s.drop i) pme).2.2 then
          (lookup g (s.drop i) pme).1 ++
            scanSpecF g s fuel (i + (lookup g (s.drop i) pme).2.1)
              ((lookup g (s.drop i) pme).2.1 == 0)
        else (if i < s.length then [s.getD i 0] else []) ++ scanSpecF g s fuel (i + 1) false
      else [] := rfl

theorem scanSpecF_id (g : GenericReplacer) (s : Bytes)
    (hnone : ∀ j, j ≤ s.length → (lookup g (s.drop j) false).2.2 = false) :
    ∀ (fuel i : Nat), s.length + 2 ≤ fuel + i → scanSpecF g s fuel i false = s.drop i := by
  intro fuel
  induction fuel with
  | zero =>
    intro i hfi
    rw [show scanSpecF g s 0 i false = [] from rfl]
    rw [eq_comm, List.drop_eq_nil_iff]
    omega
  | succ fuel ih =>
    intro i hfi
    rw [scanSpecF_step]
    by_cases hil : i ≤ s.length
    · rw [if_pos hil, hnone i hil]
      simp only [Bool.false_eq_true, if_false]
      rw [ih (i + 1) (by omega)]
      by_cases hlt : i < s.length
      · rw [if_pos hlt, List.singleton_append]
        exact (drop_eq_getD_cons s i hlt).symm
      · rw [if_neg hlt]
        have h1 : i = s.length := by omega
        subst h1
        rw [List.nil_append, List.drop_length, List.drop_eq_nil_iff]
        omega
    · rw [if_neg hil, eq_comm, List.drop_eq_nil_iff]
      omega

/-- The generic engine's `Replace` equals its buffered `Write`. -/
theorem gReplace_eq_bufWrite (oldnew : List Bytes) (s : Bytes) :
    gReplace (makeGenericReplacer oldnew) s =
      (gWrite (makeGenericReplacer oldnew) bufWr ([] : Bytes) s).2.2 := by
  unfold gReplace
  by_cases hm : hasMatch (makeGenericReplacer oldnew) s = true
  · rw [if_pos hm]
  · rw [if_neg hm]
    obtain ⟨_, l0, ht⟩ := rootShape_built oldnew
    have hmf : hasMatchF (makeGenericReplacer oldnew) s (s.length + 2) 0 = false := by
      rw [← Bool.not_eq_true]
      exact hm
    have hnone := hasMatchF_false_lookup (makeGenericReplacer oldnew) l0 ht s
      (s.length + 2) 0 hmf (by omega)
    rw [gWrite_buf_scanSpec oldnew s]
    unfold scanSpec
    rw [scanSpecF_id (makeGenericReplacer oldnew) s
      (fun j hj => hnone j (by omega) hj) (2 * s.length + 4) 0 (by omega)]
    rw [List.drop_zero]

/-! ### Claim C3: Replace equals buffered Write -/

theorem byteWriteLoop_bufWr_step (tbl : List Nat) (fuel : Nat) (st : Bytes)
    (s : Bytes) (bufsize n : Nat) :
    byteWriteLoop tbl bufWr (fuel + 1) st s bufsize n =
      if s.isEmpty then (n, none, st)
      else byteWriteLoop tbl bufWr fuel
        (st ++ byteReplace tbl (s.take (min bufsize s.length)))
        (s.drop (min bufsize s.length)) bufsize
        (n + (byteReplace tbl (s.take (min bufsize s.length))).length) := rfl

/-- A buffered `byteReplacer.Write` run appends `byteReplace` of the whole
input to the buffer, whatever the chunking. -/
theorem byteWriteLoop_buf (tbl : List Nat) :
    ∀ (fuel : Nat) (st s : Bytes) (bufsize n : Nat),
      s.length ≤ fuel → (1 ≤ bufsize ∨ s = []) →
      (byteWriteLoop tbl bufWr fuel st s bufsize n).2.2 = st ++ byteReplace tbl s := by
  intro fuel
  induction fuel with
  | zero =>
    intro st s bufsize n hlen _
    have hs : s = [] := List.eq_nil_of_length_eq_zero (by omega)
    subst hs
    simp [byteWriteLoop, byteReplace]
  | succ fuel ih =>
    intro st s bufsize n hlen hbs
    rw [byteWriteLoop_bufWr_step]
    by_cases he : s.isEmpty = true
    · rw [if_pos he]
      have hs : s = [] := by simpa using he
      subst hs
      simp [byteReplace]
    · rw [if_neg he]
      have hs : s ≠ [] := by simpa using he
      have hs1 : 1 ≤ s.length := by
        cases s with
        | nil => exact absurd rfl hs
        | cons a t => simp
      have hb1 : 1 ≤ bufsize := by
        rcases hbs with h | h
        · exact h
        · exact absurd h hs
      have hn1 : 1 ≤ min bufsize s.length := by omega
      rw [ih (st ++ byteReplace tbl (s.take (min bufsize s.length)))
        (s.drop (min bufsize s.length)) bufsize _ (by simp; omega) (Or.inl hb1)]
      rw [List.append_assoc]
      unfold byteReplace
      rw [← List.map_append, List.take_append_drop]

/-- `byteReplacer.Replace` equals buffered `byteReplacer.Write`. -/
theorem byteReplace_eq_byteWrite (tbl : List Nat) (s : Bytes) :
    byteReplace tbl s = (byteWrite tbl bufWr ([] : Bytes) s).2.2 := by
  unfold byteWrite
  rw [byteWriteLoop_buf tbl (s.length + 1) [] s (min (32 * 1024) s.length) 0
    (by omega) ?_]
  · rw [List.nil_append]
  · cases s with
    | nil => exact Or.inr rfl
    | cons a t =>
      refine Or.inl ?_
      simp

/-- C3: for every matcher produced by `New`, `Replace` returns exactly the
bytes that `Write` delivers to an error-free in-memory buffer sink. -/
theorem c3_replace_equals_buffered_write (oldnew : List Bytes) (r : Repl) (s : Bytes)
    (h : New oldnew = some r) :
    r.Replace s = (r.Write bufWr ([] : Bytes) s).2.2 := by
  unfold New at h
  split at h
  · cases h
  · split at h
    · split at h
      · injection h with h2
        subst h2
        exact byteReplace_eq_byteWrite _ s
      · injection h with h2
        subst h2
        exact gReplace_eq_bufWrite oldnew s
    · injection h with h2
      subst h2
      exact gReplace_eq_bufWrite oldnew s

theorem c3_replace_equals_buffered_write_witness :
    New [[97], [88, 88]] = some (.generic (makeGenericReplacer [[97], [88, 88]])) ∧
    (Repl.generic (makeGenericReplacer [[97], [88, 88]])).Replace [97, 98] =
      ((Repl.generic (makeGenericReplacer [[97], [88, 88]])).Write bufWr
        ([] : Bytes) [97, 98]).2.2 :=
  ⟨rfl, c3_replace_equals_buffered_write [[97], [88, 88]]
    (.generic (makeGenericReplacer [[97], [88, 88]])) [97, 98] rfl⟩

/-! ### Claim C9: sink errors stop the scan and are propagated verbatim -/

/-- One sink call: the payload handed to the sink, the count the sink
reported, and the error the sink reported. -/
abbrev WCall := Bytes × Nat × Option Nat

/-- Total number of bytes the sink reported as written over a call list. -/
def sumRep (Δ : List WCall) : Nat := (Δ.map (fun c => c.2.1)).sum

/-- Instrument an arbitrary sink with a call log: behaves exactly like `wr`
on the first state component and records `(payload, count, error)` of every
call in order. -/
def logWr {σ : Type} (wr : σ → Bytes → Nat × Option Nat × σ) :
    σ × List WCall → Bytes → Nat × Option Nat × (σ × List WCall) :=
  fun st p =>
    ((wr st.1 p).1, (wr st.1 p).2.1,
      ((wr st.1 p).2.2, st.2 ++ [(p, (wr st.1 p).1, (wr st.1 p).2.1)]))

/-- Replay a call list against the raw sink. -/
def sinkFold {σ : Type} (wr : σ → Bytes → Nat × Option Nat × σ) (st : σ)
    (Δ : List WCall) : σ :=
  Δ.foldl (fun t c => (wr t c.1).2.2) st

/-- The streaming error contract relative to a logged run: some call list
`Δ` extends the log (delivered output is never retracted), the final raw
sink state is exactly the in-order replay of `Δ`, the returned count is the
total the sink reported over `Δ`, a `none` error means no call errored, a
`some` error means the scan stopped at the first erroring call and returned
its error unmodified, and an error-free sink yields a `none` error. -/
def LogSpec {σ : Type} (wr : σ → Bytes → Nat × Option Nat × σ) (st0 : σ)
    (log0 : List WCall) (n0 : Nat) (n : Nat) (err : Option Nat) (st : σ)
    (log : List WCall) : Prop :=
  ∃ Δ, log = log0 ++ Δ ∧ st = sinkFold wr st0 Δ ∧ n = n0 + sumRep Δ ∧
    (err = none → ∀ c ∈ Δ, c.2.2 = none) ∧
    (∀ e, err = some e → ∃ pr c, Δ = pr ++ [c] ∧ c.2.2 = some e ∧
      ∀ d ∈ pr, d.2.2 = none) ∧
    ((∀ t p, (wr t p).2.1 = none) → err = none)

theorem logSpec_nil {σ : Type} (wr : σ → Bytes → Nat × Option Nat × σ)
    (st0 : σ) (log0 : List WCall) (n0 : Nat) :
    LogSpec wr st0 log0 n0 n0 none st0 log0 := by
  refine ⟨[], (List.append_nil log0).symm, rfl, (Nat.add_zero n0).symm, ?_, ?_, ?_⟩
  · intro _ c hc
    exact absurd hc (List.not_mem_nil c)
  · intro e he
    exact absurd he (by simp)
  · intro _
    rfl

theorem logSpec_err1 {σ : Type} {wr : σ → Bytes → Nat × Option Nat × σ}
    {st0 st1 : σ} (log0 : List WCall) (n0 : Nat) {p : Bytes} {cnt : Nat}
    {e : Nat} (hw : wr st0 p = (cnt, some e, st1)) :
    LogSpec wr st0 log0 n0 (n0 + cnt) (some e) st1
      (log0 ++ [(p, cnt, some e)]) := by
  refine ⟨[(p, cnt, some e)], rfl, ?_, by simp [sumRep], ?_, ?_, ?_⟩
  · simp [sinkFold, hw]
  · intro h
    exact absurd h (by simp)
  · intro e' he'
    refine ⟨[], (p, cnt, some e), rfl, ?_, fun d hd => absurd hd (List.not_mem_nil d)⟩
    cases he'
    rfl
  · intro hall
    exact absurd (hall st0 p) (by rw [hw]; simp)

theorem logSpec_step {σ : Type} {wr : σ → Bytes → Nat × Option Nat × σ}
    {st0 st1 st : σ} {log0 log : List WCall} {n0 n : Nat} {p : Bytes}
    {cnt : Nat} {err : Option Nat} (hw : wr st0 p = (cnt, none, st1))
    (h : LogSpec wr st1 (log0 ++ [(p, cnt, none)]) (n0 + cnt) n err st log) :
    LogSpec wr st0 log0 n0 n err st log := by
  obtain ⟨Δ, hlog, hst, hn, hnone, hsome, hfree⟩ := h
  refine ⟨(p, cnt, none) :: Δ, by rw [hlog]; simp, ?_, ?_, ?_, ?_, hfree⟩
  · rw [hst]
    simp [sinkFold, hw]
  · rw [hn]
    simp [sumRep]
    omega
  · intro hne c' hc'
    rcases List.mem_cons.1 hc' with hh | hh
    · subst hh
      rfl
    · exact hnone hne c' hh
  · intro e he
    obtain ⟨pr, c', hΔ, hc', hpr⟩ := hsome e he
    refine ⟨(p, cnt, none) :: pr, c', by rw [hΔ, List.cons_append], hc', ?_⟩
    intro d hd
    rcases List.mem_cons.1 hd with hh | hh
    · subst hh
      rfl
    · exact hpr d hh

theorem gWriteLoop_step {σ : Type} (g : GenericReplacer)
    (wr : σ → Bytes → Nat × Option Nat × σ) (s : Bytes) (fuel : Nat) (st : σ)
    (i last n : Nat) (pme : Bool) (tr : List (Nat × Bytes × Nat)) :
    gWriteLoop g wr s (fuel + 1) st i last n pme tr =
      if i ≤ s.length then
        if fastSkip g s i then gWriteLoop g wr s fuel st (i + 1) last n pme tr
        else
          if (lookup g (s.drop i) pme).2.2 then
            match (wr st ((s.drop last).take (i - last))).2.1 with
            | some e =>
                (n + (wr st ((s.drop last).take (i - last))).1, some e,
                  (wr st ((s.drop last).take (i - last))).2.2, tr)
            | none =>
                match (wr (wr st ((s.drop last).take (i - last))).2.2
                    (lookup g (s.drop i) pme).1).2.1 with
                | some e =>
                    (n + (wr st ((s.drop last).take (i - last))).1 +
                        (wr (wr st ((s.drop last).take (i - last))).2.2
                          (lookup g (s.drop i) pme).1).1, some e,
                      (wr (wr st ((s.drop last).take (i - last))).2.2
                        (lookup g (s.drop i) pme).1).2.2, tr)
                | none =>
                    gWriteLoop g wr s fuel
                      (wr (wr st ((s.drop last).take (i - last))).2.2
                        (lookup g (s.drop i) pme).1).2.2
                      (i + (lookup g (s.drop i) pme).2.1)
                      (i + (lookup g (s.drop i) pme).2.1)
                      (n + (wr st ((s.drop last).take (i - last))).1 +
                        (wr (wr st ((s.drop last).take (i - last))).2.2
                          (lookup g (s.drop i) pme).1).1)
                      ((lookup g (s.drop i) pme).2.2 &&
                        (lookup g (s.drop i) pme).2.1 == 0)
                      (tr ++ [(i, (lookup g (s.drop i) pme).1,
                        (lookup g (s.drop i) pme).2.1)])
          else gWriteLoop g wr s fuel st (i + 1) last n
            ((lookup g (s.drop i) pme).2.2 && (lookup g (s.drop i) pme).2.1 == 0) tr
      else
        if last ≠ s.length then
          (n + (wr st (s.drop last)).1, (wr st (s.drop last)).2.1,
            (wr st (s.drop last)).2.2, tr)
        else (n, none, st, tr) := rfl

/-- Every `genericReplacer.Write` run against a logged sink satisfies the
streaming error contract. -/
theorem gWriteLoop_log {σ : Type} (g : GenericReplacer)
    (wr : σ → Bytes → Nat × Option Nat × σ) (s : Bytes) :
    ∀ (fuel : Nat) (st0 : σ) (log0 : List WCall) (i last n : Nat) (pme : Bool)
      (tr : List (Nat × Bytes × Nat)),
      LogSpec wr st0 log0 n
        ((gWriteLoop g (logWr wr) s fuel (st0, log0) i last n pme tr).1)
        ((gWriteLoop g (logWr wr) s fuel (st0, log0) i last n pme tr).2.1)
        ((gWriteLoop g (logWr wr) s fuel (st0, log0) i last n pme tr).2.2.1.1)
        ((gWriteLoop g (logWr wr) s fuel (st0, log0) i last n pme tr).2.2.1.2) := by
  intro fuel
  induction fuel with
  | zero =>
    intro st0 log0 i last n pme tr
    exact logSpec_nil wr st0 log0 n
  | succ fuel ih =>
    intro st0 log0 i last n pme tr
    rw [gWriteLoop_step]
    by_cases hil : i ≤ s.length
    · rw [if_pos hil]
      by_cases hfs : fastSkip g s i = true
      · rw [if_pos hfs]
        exact ih st0 log0 (i + 1) last n pme tr
      · rw [if_neg hfs]
        by_cases hlk : (lookup g (s.drop i) pme).2.2 = true
        · rw [if_pos hlk]
          rcases hw1 : wr st0 ((s.drop last).take (i - last)) with ⟨cnt1, werr1, st1⟩
          simp only [logWr, hw1]
          cases werr1 with
          | some e => exact logSpec_err1 log0 n hw1
          | none =>
            rcases hw2 : wr st1 (lookup g (s.drop i) pme).1 with ⟨cnt2, werr2, st2⟩
            simp only [hw2]
            cases werr2 with
            | some e => exact logSpec_step hw1 (logSpec_err1 _ _ hw2)
            | none =>
              exact logSpec_step hw1 (logSpec_step hw2
                (ih st2 ((log0 ++ [((s.drop last).take (i - last), cnt1, none)]) ++
                    [((lookup g (s.drop i) pme).1, cnt2, none)])
                  (i + (lookup g (s.drop i) pme).2.1)
                  (i + (lookup g (s.drop i) pme).2.1) (n + cnt1 + cnt2)
                  ((lookup g (s.drop i) pme).2.2 && (lookup g (s.drop i) pme).2.1 == 0)
                  (tr ++ [(i, (lookup g (s.drop i) pme).1,
                    (lookup g (s.drop i) pme).2.1)])))
        · rw [if_neg hlk]
          exact ih st0 log0 (i + 1) last n _ tr
    · rw [if_neg hil]
      by_cases hl : last ≠ s.length
      · rw [if_pos hl]
        rcases hw : wr st0 (s.drop last) with ⟨cnt, werr, st1⟩
        simp only [logWr, hw]
        cases werr with
        | none => exact logSpec_step hw (logSpec_nil wr st1 _ _)
        | some e => exact logSpec_err1 log0 n hw
      · rw [if_neg hl]
        exact logSpec_nil wr st0 log0 n

theorem byteWriteLoop_step {σ : Type} (tbl : List Nat)
    (wr : σ → Bytes → Nat × Option Nat × σ) (fuel : Nat) (st : σ) (s : Bytes)
    (bufsize n : Nat) :
    byteWriteLoop tbl wr (fuel + 1) st s bufsize n =
      if s.isEmpty then (n, none, st)
      else
        match (wr st (byteReplace tbl (s.take (min bufsize s.length)))).2.1 with
        | some e =>
            (n + (wr st (byteReplace tbl (s.take (min bufsize s.length)))).1, some e,
              (wr st (byteReplace tbl (s.take (min bufsize s.length)))).2.2)
        | none =>
            byteWriteLoop tbl wr fuel
              (wr st (byteReplace tbl (s.take (min bufsize s.length)))).2.2
              (s.drop (min bufsize s.length)) bufsize
              (n + (wr st (byteReplace tbl (s.take (min bufsize s.length)))).1) := rfl

/-- Every `byteReplacer.Write` run against a logged sink satisfies the
streaming error contract. -/
theorem byteWriteLoop_log {σ : Type} (tbl : List Nat)
    (wr : σ → Bytes → Nat × Option Nat × σ) :
    ∀ (fuel : Nat) (st0 : σ) (log0 : List WCall) (s : Bytes) (bufsize n : Nat),
      LogSpec wr st0 log0 n
        ((byteWriteLoop tbl (logWr wr) fuel (st0, log0) s bufsize n).1)
        ((byteWriteLoop tbl (logWr wr) fuel (st0, log0) s bufsize n).2.1)
        ((byteWriteLoop tbl (logWr wr) fuel (st0, log0) s bufsize n).2.2.1)
        ((byteWriteLoop tbl (logWr wr) fuel (st0, log0) s bufsize n).2.2.2) := by
  intro fuel
  induction fuel with
  | zero =>
    intro st0 log0 s bufsize n
    exact logSpec_nil wr st0 log0 n
  | succ fuel ih =>
    intro st0 log0 s bufsize n
    rw [byteWriteLoop_step]
    by_cases he : s.isEmpty = true
    · rw [if_pos he]
      exact logSpec_nil wr st0 log0 n
    · rw [if_neg he]
      rcases hw : wr st0 (byteReplace tbl (s.take (min bufsize s.length)))
        with ⟨cnt, werr, st1⟩
      simp only [logWr, hw]
      cases werr with
      | some e => exact logSpec_err1 log0 n hw
      | none =>
        exact logSpec_step hw (ih st1
          (log0 ++ [(byteReplace tbl (s.take (min bufsize s.length)), cnt, none)])
          (s.drop (min bufsize s.length)) bufsize (n + cnt))

/-- C9: for every matcher, every sink and every input, the streamed `Write`
run satisfies the error contract `LogSpec`: the log only grows (delivered
output is not retracted), the returned count is the total the sink reported
up to and including a failing write, a sink error stops the scan at the
first erroring call and is returned unmodified, and an error-free sink
yields a `none` error. -/
theorem c9_sink_error_stops_scan {σ : Type} (r : Repl)
    (wr : σ → Bytes → Nat × Option Nat × σ) (st0 : σ) (log0 : List WCall)
    (s : Bytes) :
    LogSpec wr st0 log0 0
      ((r.Write (logWr wr) (st0, log0) s).1)
      ((r.Write (logWr wr) (st0, log0) s).2.1)
      ((r.Write (logWr wr) (st0, log0) s).2.2.1)
      ((r.Write (logWr wr) (st0, log0) s).2.2.2) := by
  cases r with
  | generic g =>
    exact gWriteLoop_log g wr s (2 * s.length + 4) st0 log0 0 0 0 false []
  | byteR tbl =>
    exact byteWriteLoop_log tbl wr (s.length + 1) st0 log0 s
      (min (32 * 1024) s.length) 0

/-! ### Claim C5: inputs sharing no first byte with the patterns -/

/-- The claimed identity fails as stated: for the table `[("","X")]` no input
byte is the first byte of any declared pattern (the empty pattern has no
first byte), yet `Replace` on `"a"` returns `"XaX"`, not `"a"`
(bytes: a=97 X=88). -/
theorem c5_counterexample_empty_pattern :
    (∀ b ∈ [97], ∀ p ∈ pairsOf [([] : Bytes), [88]], p.1.head? ≠ some b) ∧
    ReplaceTop [[], [88]] [97] = some [88, 97, 88] ∧
    ReplaceTop [[], [88]] [97] ≠ some [97] := by decide

theorem pairsP_mem_pairsOf : ∀ (l : List Bytes) (t : Bytes × Bytes × Nat),
    t ∈ pairsP l → (t.1, t.2.1) ∈ pairsOf l
  | old :: new :: rest, t, ht => by
    rw [show pairsP (old :: new :: rest) =
      (old, new, rest.length + 2) :: pairsP rest from rfl] at ht
    rw [show pairsOf (old :: new :: rest) = (old, new) :: pairsOf rest from rfl]
    rcases List.mem_cons.1 ht with h | h
    · subst h
      exact List.mem_cons_self _ _
    · exact List.mem_cons_of_mem _ (pairsP_mem_pairsOf rest t h)
  | [], t, ht => absurd ht (List.not_mem_nil t)
  | [_], t, ht => absurd ht (List.not_mem_nil t)

/-- When every pattern is nonempty and no input byte starts a pattern, no
position of the input has a match. -/
theorem lookup_none_of_no_head (oldnew : List Bytes) (s : Bytes)
    (HB : ∀ old ∈ oldsOf oldnew, ∀ b ∈ old, b < 256)
    (HS : ∀ b ∈ s, b < 256)
    (hne : ∀ p ∈ pairsOf oldnew, p.1 ≠ [])
    (hfb : ∀ b ∈ s, ∀ p ∈ pairsOf oldnew, p.1.head? ≠ some b) :
    ∀ j, j ≤ s.length →
      (lookup (makeGenericReplacer oldnew) (s.drop j) false).2.2 = false := by
  intro j _
  rw [lookup_spec oldnew (s.drop j) false HB
    (fun b hb => HS b (List.mem_of_mem_drop hb))]
  have hnoneT : specMatchT oldnew (s.drop j) false = none := by
    unfold specMatchT
    rw [List.find?_eq_none]
    intro t ht hpred
    unfold specPred at hpred
    rw [Bool.and_eq_true] at hpred
    have hpref := hpred.1
    have hmem : (t.1, t.2.1) ∈ pairsOf oldnew := pairsP_mem_pairsOf oldnew t ht
    have hnil : t.1 ≠ [] := hne _ hmem
    cases hc : t.1 with
    | nil => exact hnil hc
    | cons c cs =>
      have hsplit := hasPref_append_drop t.1 (s.drop j) hpref
      have hcmem : c ∈ s := by
        refine List.mem_of_mem_drop (n := j) ?_
        rw [hsplit, hc]
        exact List.mem_append_left _ (List.mem_cons_self c cs)
      refine hfb c hcmem (t.1, t.2.1) hmem ?_
      rw [hc]
      rfl
  unfold specMatch
  rw [hnoneT]
  rfl

/-- Converse of `hasMatchF_false_lookup`: when no position matches,
`hasMatch` is false. -/
theorem hasMatchF_false_of_lookup (g : GenericReplacer) (s : Bytes)
    (hnone : ∀ j, j ≤ s.length → (lookup g (s.drop j) false).2.2 = false) :
    ∀ (fuel i : Nat), hasMatchF g s fuel i = false := by
  intro fuel
  induction fuel with
  | zero => intro _; rfl
  | succ fuel ih =>
    intro i
    rw [hasMatchF_step]
    by_cases hil : i ≤ s.length
    · rw [if_pos hil]
      by_cases hfs : fastSkip g s i = true
      · rw [if_pos hfs]
        exact ih (i + 1)
      · rw [if_neg hfs, hnone i hil]
        simp only [Bool.false_eq_true, if_false]
        exact ih (i + 1)
    · rw [if_neg hil]

theorem foldl_set_getD_ne (b : Nat) :
    ∀ (l : List (Bytes × Bytes)) (r : List Nat),
      (∀ p ∈ l, p.1.getD 0 0 ≠ b) →
      (l.foldl (fun r p => r.set (p.1.getD 0 0) (p.2.getD 0 0)) r).getD b 0 =
        r.getD b 0 := by
  intro l
  induction l with
  | nil => intro r _; rfl
  | cons p t ih =>
    intro r h
    rw [List.foldl_cons, ih _ (fun q hq => h q (List.mem_cons_of_mem p hq))]
    exact getD_set_ne r (p.1.getD 0 0) b (p.2.getD 0 0) 0 (h p (List.mem_cons_self p t))

/-- The byte table maps a byte no pattern starts with to itself. -/
theorem byteTableOf_getD (oldnew : List Bytes) (b : Nat) (hb : b < 256)
    (h : ∀ p ∈ pairsOf oldnew, p.1.getD 0 0 ≠ b) :
    (byteTableOf oldnew).getD b 0 = b := by
  unfold byteTableOf
  rw [foldl_set_getD_ne b _ _ (fun p hp => h p (List.mem_reverse.1 hp))]
  rw [List.getD_eq_getElem _ _ (by simpa using hb)]
  simp

theorem byteReplace_id (tbl : List Nat) :
    ∀ (s : Bytes), (∀ b ∈ s, tbl.getD b 0 = b) → byteReplace tbl s = s := by
  intro s
  induction s with
  | nil => intro _; rfl
  | cons a t ih =>
    intro h
    unfold byteReplace
    rw [List.map_cons, h a (List.mem_cons_self a t)]
    rw [show t.map (fun b => tbl.getD b 0) = byteReplace tbl t from rfl]
    rw [ih (fun b hb => h b (List.mem_cons_of_mem a hb))]

/-- C5 (amended): when additionally every declared pattern is nonempty — the
empty pattern breaks the claim, see the counterexample — an input none of
whose bytes is the first byte of any declared pattern is returned unchanged
by `Replace`, in both engines. -/
theorem c5_no_pattern_byte_identity (oldnew : List Bytes) (s : Bytes)
    (hev : oldnew.length % 2 = 0)
    (HB : ∀ old ∈ oldsOf oldnew, ∀ b ∈ old, b < 256)
    (HS : ∀ b ∈ s, b < 256)
    (hne : ∀ p ∈ pairsOf oldnew, p.1 ≠ [])
    (hfb : ∀ b ∈ s, ∀ p ∈ pairsOf oldnew, p.1.head? ≠ some b) :
    ReplaceTop oldnew s = some s := by
  have hgen : gReplace (makeGenericReplacer oldnew) s = s := by
    unfold gReplace
    have hm : hasMatch (makeGenericReplacer oldnew) s = false :=
      hasMatchF_false_of_lookup (makeGenericReplacer oldnew) s
        (lookup_none_of_no_head oldnew s HB HS hne hfb) (s.length + 2) 0
    rw [hm]
    simp
  unfold ReplaceTop New
  have hodd : ¬(oldnew.length % 2 = 1) := by omega
  rw [if_neg hodd]
  by_cases h1 : ((pairsOf oldnew).all fun p => p.1.length = 1) = true
  · rw [if_pos h1]
    by_cases h2 : ((pairsOf oldnew).all fun p => p.2.length = 1) = true
    · rw [if_pos h2]
      show some ((Repl.byteR (byteTableOf oldnew)).Replace s) = some s
      congr 1
      show byteReplace (byteTableOf oldnew) s = s
      refine byteReplace_id (byteTableOf oldnew) s ?_
      intro b hb
      refine byteTableOf_getD oldnew b (HS b hb) ?_
      intro p hp hcontra
      have hlen : p.1.length = 1 := of_decide_eq_true ((List.all_eq_true.1 h1) p hp)
      cases hp1 : p.1 with
      | nil =>
        rw [hp1] at hlen
        exact absurd hlen (by simp)
      | cons x xs =>
        rw [hp1] at hcontra
        simp only [List.getD_cons_zero] at hcontra
        refine hfb b hb p hp ?_
        rw [hp1, hcontra]
        rfl
    · rw [if_neg h2]
      exact congrArg some hgen
  · rw [if_neg h1]
    exact congrArg some hgen

theorem c5_no_pattern_byte_identity_witness :
    ([[97], [98]] : List Bytes).length % 2 = 0 ∧
    (∀ old ∈ oldsOf [[97], [98]], ∀ b ∈ old, b < 256) ∧
    (∀ b ∈ [99], b < 256) ∧
    (∀ p ∈ pairsOf [[97], [98]], p.1 ≠ []) ∧
    (∀ b ∈ [99], ∀ p ∈ pairsOf [[97], [98]], p.1.head? ≠ some b) ∧
    ReplaceTop [[97], [98]] [99] = some [99] :=
  ⟨by decide, by decide, by decide, by decide, by decide,
    c5_no_pattern_byte_identity [[97], [98]] [99] (by decide) (by decide)
      (by decide) (by decide) (by decide)⟩

/-! ### Claim C7: duplicate old patterns, first declared wins -/

/-- C7: when a pattern matches, the emitted value is the binding of the
first (earliest-declared) pair carrying that exact old key, so a duplicate
old pattern is always replaced by the first pair's new value; the single-byte
fast path `[("a","1"),("a","2")]` on `"a"` yields `"1"`, and so does the
general trie engine on `[("a","1"),("a","2"),("bc","X")]`
(bytes: a=97 b=98 c=99 1=49 2=50 X=88). -/
theorem c7_duplicate_old_first_wins :
    (∀ (oldnew : List Bytes) (s : Bytes) (ir : Bool) (v : Bytes) (k : Nat),
      (∀ old ∈ oldsOf oldnew, ∀ b ∈ old, b < 256) →
      (∀ b ∈ s, b < 256) →
      lookup (makeGenericReplacer oldnew) s ir = (v, k, true) →
      ∃ p, firstB oldnew (s.take k) = some (v, p)) ∧
    ReplaceTop [[97], [49], [97], [50]] [97] = some [49] ∧
    ReplaceTop [[97], [49], [97], [50], [98, 99], [88]] [97] = some [49] := by
  refine ⟨?_, by decide, by decide⟩
  intro oldnew s ir v k HB HS hlk
  rw [lookup_spec oldnew s ir HB HS] at hlk
  cases hmt : specMatchT oldnew s ir with
  | none =>
    rw [show specMatch oldnew s ir = (specMatchT oldnew s ir).map
      (fun t => (t.2.1, t.1.length)) from rfl, hmt] at hlk
    have hfalse : (false : Bool) = true := congrArg (fun x => x.2.2) hlk
    exact absurd hfalse (by simp)
  | some t =>
    rw [show specMatch oldnew s ir = (specMatchT oldnew s ir).map
      (fun t => (t.2.1, t.1.length)) from rfl, hmt] at hlk
    have hv : t.2.1 = v := congrArg (fun x => x.1) hlk
    have hk : t.1.length = k := congrArg (fun x => x.2.1) hlk
    have hmt' : (pairsP oldnew).find? (fun x => specPred s ir x.1) = some t := hmt
    have hpred : specPred s ir t.1 = true := by
      have h2 := List.find?_some hmt'
      exact h2
    have hpref : hasPref t.1 s = true := by
      unfold specPred at hpred
      rw [Bool.and_eq_true] at hpred
      exact hpred.1
    have htake : s.take t.1.length = t.1 := hasPref_take t.1 s hpref
    have hkey := find?_key_agree (pairsP oldnew) (specPred s ir) t hmt'
    refine ⟨t.2.2, ?_⟩
    unfold firstB
    rw [← hk, htake, hkey]
    show some (t.2.1, t.2.2) = some (v, t.2.2)
    rw [hv]

theorem c7_duplicate_old_first_wins_witness :
    ∃ p, firstB [[97], [49], [97], [50], [98, 99], [88]] ([97].take 1) =
      some ([49], p) :=
  c7_duplicate_old_first_wins.1 [[97], [49], [97], [50], [98, 99], [88]] [97]
    false [49] 1 (by decide) (by decide) (by decide)

/-! ### Claim C2: single-byte fast path equals the general engine -/

theorem foldr_set_length : ∀ (l : List (Bytes × Bytes)) (r : List Nat),
    (l.foldr (fun p acc => acc.set (p.1.getD 0 0) (p.2.getD 0 0)) r).length =
      r.length := by
  intro l
  induction l with
  | nil => intro r; rfl
  | cons p t ih =>
    intro r
    rw [List.foldr_cons, List.length_set]
    exact ih r

theorem getD_set_eq : ∀ (r : List Nat) (i a : Nat), i < r.length →
    (r.set i a).getD i 0 = a := by
  intro r
  induction r with
  | nil =>
    intro i a h
    simp at h
  | cons b tl ih =>
    intro i a h
    cases i with
    | zero => rfl
    | succ i =>
      rw [show (b :: tl).set (i + 1) a = b :: tl.set i a from rfl]
      rw [List.getD_cons_succ]
      exact ih i a (by simpa using h)

theorem foldr_set_getD_char (b : Nat) :
    ∀ (l : List (Bytes × Bytes)) (r : List Nat), b < r.length →
      (l.foldr (fun p acc => acc.set (p.1.getD 0 0) (p.2.getD 0 0)) r).getD b 0 =
        match l.find? (fun p => p.1.getD 0 0 == b) with
        | some p => p.2.getD 0 0
        | none => r.getD b 0 := by
  intro l
  induction l with
  | nil => intro r _; rfl
  | cons p t ih =>
    intro r hb
    rw [List.foldr_cons]
    by_cases hq : (p.1.getD 0 0 == b) = true
    · have hqb : p.1.getD 0 0 = b := by simpa using hq
      rw [hqb, getD_set_eq _ b _ (by rw [foldr_set_length]; exact hb)]
      have hfind : List.find? (fun q => q.1.getD 0 0 == b) (p :: t) = some p :=
        List.find?_cons_of_pos _ hq
      rw [hfind]
    · have hqb : p.1.getD 0 0 ≠ b := by simpa using hq
      rw [getD_set_ne _ _ _ _ _ hqb]
      have hfind : List.find? (fun q => q.1.getD 0 0 == b) (p :: t) =
          List.find? (fun q => q.1.getD 0 0 == b) t :=
        List.find?_cons_of_neg _ hq
      rw [hfind]
      exact ih r hb

/-- The byte table sends `b` to the first declared pair whose old starts
with `b`, or to itself when no pair does. -/
theorem byteTableOf_getD_char (oldnew : List Bytes) (b : Nat) (hb : b < 256) :
    (byteTableOf oldnew).getD b 0 =
      match (pairsOf oldnew).find? (fun p => p.1.getD 0 0 == b) with
      | some p => p.2.getD 0 0
      | none => b := by
  unfold byteTableOf
  rw [List.foldl_reverse]
  show ((pairsOf oldnew).foldr (fun p acc => acc.set (p.1.getD 0 0) (p.2.getD 0 0))
    (List.range 256)).getD b 0 = _
  rw [foldr_set_getD_char b (pairsOf oldnew) (List.range 256) (by simpa using hb)]
  cases hf : (pairsOf oldnew).find? (fun p => p.1.getD 0 0 == b) with
  | some p => rfl
  | none =>
    rw [List.getD_eq_getElem _ _ (by simpa using hb)]
    simp

theorem find?_congr_mem {α : Type} : ∀ (l : List α) (p q : α → Bool),
    (∀ x ∈ l, p x = q x) → l.find? p = l.find? q := by
  intro l
  induction l with
  | nil => intro p q _; rfl
  | cons a t ih =>
    intro p q h
    by_cases hp : p a = true
    · rw [List.find?_cons_of_pos _ hp,
        List.find?_cons_of_pos _ (by rw [← h a (List.mem_cons_self a t)]; exact hp)]
    · rw [List.find?_cons_of_neg _ hp,
        List.find?_cons_of_neg _ (by rw [← h a (List.mem_cons_self a t)]; exact hp)]
      exact ih p q (fun x hx => h x (List.mem_cons_of_mem a hx))

theorem find?_pairsP_pairsOf (f : Bytes → Bool) : ∀ (l : List Bytes),
    ((pairsP l).find? (fun t => f t.1)).map (fun t => (t.1, t.2.1)) =
      (pairsOf l).find? (fun p => f p.1)
  | old :: new :: rest => by
    rw [show pairsP (old :: new :: rest) =
      (old, new, rest.length + 2) :: pairsP rest from rfl]
    rw [show pairsOf (old :: new :: rest) = (old, new) :: pairsOf rest from rfl]
    by_cases hf : f old = true
    · rw [List.find?_cons_of_pos _ (by exact hf),
        List.find?_cons_of_pos _ (by exact hf)]
      rfl
    · rw [List.find?_cons_of_neg _ (by exact hf),
        List.find?_cons_of_neg _ (by exact hf)]
      exact find?_pairsP_pairsOf f rest
  | [] => rfl
  | [_] => rfl

/-- Over a single-byte table, the scanner is a per-byte map through the byte
table. -/
theorem scanSpec_byteMap (oldnew : List Bytes) (s : Bytes)
    (h1 : ∀ p ∈ pairsOf oldnew, p.1.length = 1)
    (h2 : ∀ p ∈ pairsOf oldnew, p.2.length = 1)
    (HB : ∀ old ∈ oldsOf oldnew, ∀ b ∈ old, b < 256)
    (HS : ∀ b ∈ s, b < 256) :
    ∀ (fuel i : Nat), s.length + 2 ≤ fuel + i →
      scanSpecF (makeGenericReplacer oldnew) s fuel i false =
        (s.drop i).map (fun b => (byteTableOf oldnew).getD b 0) := by
  intro fuel
  induction fuel with
  | zero =>
    intro i h
    rw [show s.drop i = [] from List.drop_eq_nil_iff.2 (by omega)]
    rfl
  | succ fuel ih =>
    intro i hfi
    rw [scanSpecF_step]
    by_cases hil : i ≤ s.length
    · rw [if_pos hil]
      have HSd : ∀ b ∈ s.drop i, b < 256 := fun b hb => HS b (List.mem_of_mem_drop hb)
      by_cases hlt : i < s.length
      · have hdropc : s.drop i = s.getD i 0 :: s.drop (i + 1) := drop_eq_getD_cons s i hlt
        have hbmem : s.getD i 0 ∈ s := by
          rw [List.getD_eq_getElem s 0 hlt]
          exact List.getElem_mem hlt
        have hpred_eq : ∀ t ∈ pairsP oldnew,
            specPred (s.drop i) false t.1 = (t.1.getD 0 0 == s.getD i 0) := by
          intro t ht
          have hmem := pairsP_mem_pairsOf oldnew t ht
          have hl1 : t.1.length = 1 := h1 _ hmem
          cases hc : t.1 with
          | nil =>
            rw [hc] at hl1
            simp at hl1
          | cons x xs =>
            have hxs : xs = [] := by
              rw [hc] at hl1
              simpa using hl1
            subst hxs
            unfold specPred
            rw [hdropc]
            rw [show hasPref [x] (s.getD i 0 :: s.drop (i + 1)) =
              ((x == s.getD i 0) && hasPref [] (s.drop (i + 1))) from rfl]
            rw [show hasPref ([] : Bytes) (s.drop (i + 1)) = true from rfl]
            simp
        have hmtT : specMatchT oldnew (s.drop i) false =
            (pairsP oldnew).find? (fun t => t.1.getD 0 0 == s.getD i 0) := by
          unfold specMatchT
          exact find?_congr_mem _ _ _ hpred_eq
        have hmap := find?_pairsP_pairsOf (fun old => old.getD 0 0 == s.getD i 0) oldnew
        cases hf : (pairsOf oldnew).find? (fun p => p.1.getD 0 0 == s.getD i 0) with
        | some p =>
          rw [hf] at hmap
          cases hx : (pairsP oldnew).find? (fun t => t.1.getD 0 0 == s.getD i 0) with
          | none =>
            rw [hx] at hmap
            exact absurd hmap (by simp)
          | some t =>
            rw [hx] at hmap
            have hpt : (t.1, t.2.1) = p := Option.some.inj hmap
            have hsm : specMatch oldnew (s.drop i) false = some (t.2.1, t.1.length) := by
              unfold specMatch
              rw [hmtT, hx]
              rfl
            have hl1 : t.1.length = 1 :=
              h1 _ (pairsP_mem_pairsOf oldnew t (List.mem_of_find?_eq_some hx))
            have hlook : lookup (makeGenericReplacer oldnew) (s.drop i) false =
                (t.2.1, 1, true) := by
              rw [lookup_spec oldnew (s.drop i) false HB HSd, hsm, hl1]
              rfl
            rw [hlook]
            show t.2.1 ++ scanSpecF (makeGenericReplacer oldnew) s fuel (i + 1) false =
              (s.drop i).map (fun b => (byteTableOf oldnew).getD b 0)
            rw [ih (i + 1) (by omega), hdropc, List.map_cons]
            have hmemP : p ∈ pairsOf oldnew := List.mem_of_find?_eq_some hf
            have hl2 : p.2.length = 1 := h2 _ hmemP
            have hfbv : (byteTableOf oldnew).getD (s.getD i 0) 0 = p.2.getD 0 0 := by
              rw [byteTableOf_getD_char oldnew _ (HS _ hbmem), hf]
            cases hp2 : p.2 with
            | nil =>
              rw [hp2] at hl2
              simp at hl2
            | cons y ys =>
              have hys : ys = [] := by
                rw [hp2] at hl2
                simpa using hl2
              subst hys
              have ht2 : t.2.1 = p.2 := congrArg (fun q => q.2) hpt
              rw [ht2, hp2, hfbv, hp2]
              rfl
        | none =>
          cases hx : (pairsP oldnew).find? (fun t => t.1.getD 0 0 == s.getD i 0) with
          | some t =>
            rw [hx, hf] at hmap
            exact absurd hmap (by simp)
          | none =>
            have hsm : specMatch oldnew (s.drop i) false = none := by
              unfold specMatch
              rw [hmtT, hx]
              rfl
            have hlook : lookup (makeGenericReplacer oldnew) (s.drop i) false =
                ([], 0, false) := by
              rw [lookup_spec oldnew (s.drop i) false HB HSd, hsm]
              rfl
            rw [hlook]
            show (if i < s.length then [s.getD i 0] else []) ++
                scanSpecF (makeGenericReplacer oldnew) s fuel (i + 1) false =
              (s.drop i).map (fun b => (byteTableOf oldnew).getD b 0)
            rw [if_pos hlt, ih (i + 1) (by omega), hdropc, List.map_cons]
            have hfbv : (byteTableOf oldnew).getD (s.getD i 0) 0 = s.getD i 0 := by
              rw [byteTableOf_getD_char oldnew _ (HS _ hbmem), hf]
            rw [hfbv]
            rfl
      · have hieq : i = s.length := by omega
        have hdnil : s.drop i = [] := by
          rw [hieq]
          exact List.drop_length s
        have hsmT : specMatchT oldnew (s.drop i) false = none := by
          unfold specMatchT
          rw [List.find?_eq_none]
          intro t ht hpred
          have hmem := pairsP_mem_pairsOf oldnew t ht
          have hl1 : t.1.length = 1 := h1 _ hmem
          unfold specPred at hpred
          rw [Bool.and_eq_true] at hpred
          have hp := hpred.1
          rw [hdnil] at hp
          cases hc : t.1 with
          | nil =>
            rw [hc] at hl1
            simp at hl1
          | cons x xs =>
            rw [hc] at hp
            exact absurd hp (by rw [show hasPref (x :: xs) [] = false from rfl]; simp)
        have hlook : lookup (makeGenericReplacer oldnew) (s.drop i) false =
            ([], 0, false) := by
          rw [lookup_spec oldnew (s.drop i) false HB HSd]
          rw [show specMatch oldnew (s.drop i) false = none from
            (by unfold specMatch; rw [hsmT]; rfl)]
          rfl
        rw [hlook]
        show (if i < s.length then [s.getD i 0] else []) ++
            scanSpecF (makeGenericReplacer oldnew) s fuel (i + 1) false =
          (s.drop i).map (fun b => (byteTableOf oldnew).getD b 0)
        rw [if_neg hlt, ih (i + 1) (by omega), hdnil]
        rw [show s.drop (i + 1) = [] from List.drop_eq_nil_iff.2 (by omega)]
        rfl
    · rw [if_neg hil]
      rw [show s.drop i = [] from List.drop_eq_nil_iff.2 (by omega)]
      rfl

/-- The generic engine's `Replace` equals the scanner on every input. -/
theorem gReplace_eq_scanSpec (oldnew : List Bytes) (s : Bytes) :
    gReplace (makeGenericReplacer oldnew) s = scanSpec (makeGenericReplacer oldnew) s := by
  unfold gReplace
  by_cases hm : hasMatch (makeGenericReplacer oldnew) s = true
  · rw [if_pos hm]
    exact gWrite_buf_scanSpec oldnew s
  · rw [if_neg hm]
    obtain ⟨_, l0, ht⟩ := rootShape_built oldnew
    have hmf : hasMatchF (makeGenericReplacer oldnew) s (s.length + 2) 0 = false := by
      rw [← Bool.not_eq_true]
      exact hm
    have hnone := hasMatchF_false_lookup (makeGenericReplacer oldnew) l0 ht s
      (s.length + 2) 0 hmf (by omega)
    unfold scanSpec
    rw [scanSpecF_id (makeGenericReplacer oldnew) s
      (fun j hj => hnone j (by omega) hj) (2 * s.length + 4) 0 (by omega)]
    rw [List.drop_zero]

/-- C2: for a table in which every old and every new is a single byte, `New`
selects the byte replacer, and the byte replacer's output is identical to
the general trie engine's output on the same table and input. -/
theorem c2_single_byte_equivalence (oldnew : List Bytes) (s : Bytes)
    (h1 : ∀ p ∈ pairsOf oldnew, p.1.length = 1)
    (h2 : ∀ p ∈ pairsOf oldnew, p.2.length = 1)
    (HB : ∀ old ∈ oldsOf oldnew, ∀ b ∈ old, b < 256)
    (HS : ∀ b ∈ s, b < 256)
    (hev : oldnew.length % 2 = 0) :
    New oldnew = some (.byteR (byteTableOf oldnew)) ∧
    byteReplace (byteTableOf oldnew) s = gReplace (makeGenericReplacer oldnew) s := by
  constructor
  · unfold New
    rw [if_neg (by omega)]
    have hA : ((pairsOf oldnew).all fun p => p.1.length = 1) = true :=
      List.all_eq_true.2 (fun p hp => decide_eq_true (h1 p hp))
    have hB2 : ((pairsOf oldnew).all fun p => p.2.length = 1) = true :=
      List.all_eq_true.2 (fun p hp => decide_eq_true (h2 p hp))
    rw [if_pos hA, if_pos hB2]
  · rw [gReplace_eq_scanSpec oldnew s]
    rw [show scanSpec (makeGenericReplacer oldnew) s =
      scanSpecF (makeGenericReplacer oldnew) s (2 * s.length + 4) 0 false from rfl]
    rw [scanSpec_byteMap oldnew s h1 h2 HB HS (2 * s.length + 4) 0 (by omega)]
    rw [List.drop_zero]
    rfl

theorem c2_single_byte_equivalence_witness :
    New [[97], [98], [98], [97]] = some (.byteR (byteTableOf [[97], [98], [98], [97]])) ∧
    byteReplace (byteTableOf [[97], [98], [98], [97]]) [97, 98] =
      gReplace (makeGenericReplacer [[97], [98], [98], [97]]) [97, 98] :=
  c2_single_byte_equivalence [[97], [98], [98], [97]] [97, 98] (by decide) (by decide)
    (by decide) (by decide) (by decide)

/-! ### Claim C4: empty-pattern matches and progress -/

/-- The claim's "accepted exactly once per input position" fails: in the
table `[("a","Z"),("","X")]` applied to `"a"`, position 0 accepts the "a"
match (priority beats the empty pattern), so no empty match is accepted at
position 0 — yet the scan is fine and yields `"ZX"`
(bytes: a=97 Z=90 X=88). -/
theorem c4_counterexample_preempted_empty :
    gWriteTrace (makeGenericReplacer [[97], [90], [], [88]]) [97] =
      [(0, [90], 1), (1, [88], 0)] ∧
    ((gWriteTrace (makeGenericReplacer [[97], [90], [], [88]]) [97]).filter
      (fun e => e.1 == 0 && e.2.2 == 0)).length = 0 ∧
    ReplaceTop [[97], [90], [], [88]] [97] = some [90, 88] := by decide

/-- How often the scan accepted an empty match at position `p`. -/
def cnt0 (tr : List (Nat × Bytes × Nat)) (p : Nat) : Nat :=
  (tr.filter (fun e => e.1 == p && e.2.2 == 0)).length

theorem cnt0_nil (p : Nat) : cnt0 [] p = 0 := rfl

theorem cnt0_cons_pos (e : Nat × Bytes × Nat) (Δ : List (Nat × Bytes × Nat))
    (p : Nat) (h1 : e.1 = p) (h2 : e.2.2 = 0) :
    cnt0 (e :: Δ) p = cnt0 Δ p + 1 := by
  unfold cnt0
  rw [List.filter_cons, if_pos (by simp [h1, h2])]
  rw [List.length_cons]

theorem cnt0_cons_neg (e : Nat × Bytes × Nat) (Δ : List (Nat × Bytes × Nat))
    (p : Nat) (h : e.1 ≠ p ∨ e.2.2 ≠ 0) :
    cnt0 (e :: Δ) p = cnt0 Δ p := by
  unfold cnt0
  rw [List.filter_cons, if_neg ?_]
  rcases h with h | h
  · simp [h]
  · simp [h]

theorem cnt0_eq_zero (Δ : List (Nat × Bytes × Nat)) (p : Nat)
    (h : ∀ e ∈ Δ, e.1 ≠ p) : cnt0 Δ p = 0 := by
  induction Δ with
  | nil => rfl
  | cons e t ih =>
    rw [cnt0_cons_neg e t p (Or.inl (h e (List.mem_cons_self e t)))]
    exact ih (fun x hx => h x (List.mem_cons_of_mem e hx))

/-- One unit of fuel beyond the remaining-work measure never changes the
result of the buffered write loop: the loop terminates within the measure. -/
theorem gWriteLoop_fuel_succ (g : GenericReplacer) (s : Bytes) :
    ∀ (fuel : Nat) (buf : Bytes) (i last n : Nat) (pme : Bool)
      (tr : List (Nat × Bytes × Nat)),
      2 * (s.length + 1 - i) + (if pme = true then 0 else 1) + 1 ≤ fuel →
      gWriteLoop g bufWr s (fuel + 1) buf i last n pme tr =
        gWriteLoop g bufWr s fuel buf i last n pme tr := by
  intro fuel
  induction fuel with
  | zero =>
    intro buf i last n pme tr hM
    cases pme with
    | false =>
      rw [if_neg Bool.false_ne_true] at hM
      omega
    | true =>
      rw [if_pos rfl] at hM
      omega
  | succ fuel ih =>
    intro buf i last n pme tr hM
    rw [gWriteLoop_buf_step g s fuel buf i last n pme tr]
    rw [gWriteLoop_buf_step g s (fuel + 1) buf i last n pme tr]
    by_cases hil : i ≤ s.length
    · rw [if_pos hil, if_pos hil]
      by_cases hfs : fastSkip g s i = true
      · rw [if_pos hfs, if_pos hfs]
        refine ih buf (i + 1) last n pme tr ?_
        generalize (if pme = true then (0 : Nat) else 1) = c at hM ⊢
        omega
      · rw [if_neg hfs, if_neg hfs]
        by_cases hlk : (lookup g (s.drop i) pme).2.2 = true
        · rw [if_pos hlk, if_pos hlk]
          by_cases hk : (lookup g (s.drop i) pme).2.1 = 0
          · have hpme : pme = false := (lookup_empty_match g (s.drop i) pme hlk hk).1
            have hpme' : ((lookup g (s.drop i) pme).2.2 &&
                (lookup g (s.drop i) pme).2.1 == 0) = true := by
              rw [hlk, hk]
              rfl
            refine ih _ _ _ _ _ _ ?_
            rw [hpme', if_pos rfl]
            rw [hpme] at hM
            rw [if_neg Bool.false_ne_true] at hM
            omega
          · have hpme' : ((lookup g (s.drop i) pme).2.2 &&
                (lookup g (s.drop i) pme).2.1 == 0) = false := by
              rw [hlk]
              rw [Bool.true_and]
              exact beq_eq_false_iff_ne.2 hk
            refine ih _ _ _ _ _ _ ?_
            rw [hpme', if_neg Bool.false_ne_true]
            generalize hK : (lookup g (s.drop i) pme).2.1 = K
            rw [hK] at hk
            generalize (if pme = true then (0 : Nat) else 1) = c at hM
            omega
        · rw [if_neg hlk, if_neg hlk]
          have hlk' : (lookup g (s.drop i) pme).2.2 = false := by
            rw [← Bool.not_eq_true]
            exact hlk
          have hpme' : ((lookup g (s.drop i) pme).2.2 &&
              (lookup g (s.drop i) pme).2.1 == 0) = false := by
            rw [hlk', Bool.false_and]
          refine ih _ _ _ _ _ _ ?_
          rw [hpme', if_neg Bool.false_ne_true]
          generalize (if pme = true then (0 : Nat) else 1) = c at hM
          omega
    · rw [if_neg hil, if_neg hil]

theorem gWriteLoop_fuel_ge (g : GenericReplacer) (s : Bytes) :
    ∀ (d fuel : Nat) (buf : Bytes) (i last n : Nat) (pme : Bool)
      (tr : List (Nat × Bytes × Nat)),
      2 * (s.length + 1 - i) + (if pme = true then 0 else 1) + 1 ≤ fuel →
      gWriteLoop g bufWr s (fuel + d) buf i last n pme tr =
        gWriteLoop g bufWr s fuel buf i last n pme tr := by
  intro d
  induction d with
  | zero => intro fuel buf i last n pme tr _; rfl
  | succ d ih =>
    intro fuel buf i last n pme tr hM
    rw [show fuel + (d + 1) = (fuel + d) + 1 by omega]
    rw [gWriteLoop_fuel_succ g s (fuel + d) buf i last n pme tr
      (le_trans hM (by omega))]
    exact ih fuel buf i last n pme tr hM

/-- Every empty-pattern acceptance at a position is at most once: the ghost
trace of a buffered write contains at most one `(p, ·, 0)` entry per `p`. -/
theorem gWriteLoop_trace_once (g : GenericReplacer) (s : Bytes) :
    ∀ (fuel : Nat) (buf : Bytes) (i last n : Nat) (pme : Bool)
      (tr : List (Nat × Bytes × Nat)),
      ∃ Δ, (gWriteLoop g bufWr s fuel buf i last n pme tr).2.2.2 = tr ++ Δ ∧
        (∀ e ∈ Δ, i ≤ e.1) ∧ (∀ p, cnt0 Δ p ≤ 1) ∧
        (pme = true → cnt0 Δ i = 0) := by
  intro fuel
  induction fuel with
  | zero =>
    intro buf i last n pme tr
    exact ⟨[], (List.append_nil tr).symm,
      fun e he => absurd he (List.not_mem_nil e),
      fun p => by rw [cnt0_nil]; omega,
      fun _ => cnt0_nil i⟩
  | succ fuel ih =>
    intro buf i last n pme tr
    rw [gWriteLoop_buf_step]
    by_cases hil : i ≤ s.length
    · rw [if_pos hil]
      by_cases hfs : fastSkip g s i = true
      · rw [if_pos hfs]
        obtain ⟨Δ, hΔ, hge, hcnt, _⟩ := ih buf (i + 1) last n pme tr
        refine ⟨Δ, hΔ, fun e he => by have := hge e he; omega, hcnt, fun _ => ?_⟩
        exact cnt0_eq_zero Δ i (fun e he => by have := hge e he; omega)
      · rw [if_neg hfs]
        by_cases hlk : (lookup g (s.drop i) pme).2.2 = true
        · rw [if_pos hlk]
          by_cases hk : (lookup g (s.drop i) pme).2.1 = 0
          · have hpme : pme = false := (lookup_empty_match g (s.drop i) pme hlk hk).1
            have hpme' : ((lookup g (s.drop i) pme).2.2 &&
                (lookup g (s.drop i) pme).2.1 == 0) = true := by
              rw [hlk, hk]
              rfl
            obtain ⟨Δ, hΔ, hge, hcnt, hpm⟩ := ih
              (buf ++ (s.drop last).take (i - last) ++ (lookup g (s.drop i) pme).1)
              (i + (lookup g (s.drop i) pme).2.1) (i + (lookup g (s.drop i) pme).2.1)
              (n + ((s.drop last).take (i - last)).length +
                (lookup g (s.drop i) pme).1.length)
              ((lookup g (s.drop i) pme).2.2 && (lookup g (s.drop i) pme).2.1 == 0)
              (tr ++ [(i, (lookup g (s.drop i) pme).1, (lookup g (s.drop i) pme).2.1)])
            refine ⟨(i, (lookup g (s.drop i) pme).1, (lookup g (s.drop i) pme).2.1) :: Δ,
              ?_, ?_, ?_, ?_⟩
            · rw [hΔ, List.append_assoc]
              rfl
            · intro e he
              rcases List.mem_cons.1 he with hh | hh
              · subst hh
                exact Nat.le_refl i
              · have := hge e hh
                omega
            · intro p
              by_cases hp : p = i
              · subst hp
                have hcp : cnt0 ((p, (lookup g (s.drop p) pme).1,
                    (lookup g (s.drop p) pme).2.1) :: Δ) p = cnt0 Δ p + 1 :=
                  cnt0_cons_pos _ _ _ rfl hk
                rw [hcp]
                have h0 : cnt0 Δ (p + (lookup g (s.drop p) pme).2.1) = 0 := hpm hpme'
                rw [hk, Nat.add_zero] at h0
                omega
              · rw [cnt0_cons_neg _ _ _ (Or.inl (fun hh => hp hh.symm))]
                exact hcnt p
            · intro hpt
              rw [hpme] at hpt
              cases hpt
          · have hkpos : 1 ≤ (lookup g (s.drop i) pme).2.1 := by omega
            obtain ⟨Δ, hΔ, hge, hcnt, _⟩ := ih
              (buf ++ (s.drop last).take (i - last) ++ (lookup g (s.drop i) pme).1)
              (i + (lookup g (s.drop i) pme).2.1) (i + (lookup g (s.drop i) pme).2.1)
              (n + ((s.drop last).take (i - last)).length +
                (lookup g (s.drop i) pme).1.length)
              ((lookup g (s.drop i) pme).2.2 && (lookup g (s.drop i) pme).2.1 == 0)
              (tr ++ [(i, (lookup g (s.drop i) pme).1, (lookup g (s.drop i) pme).2.1)])
            refine ⟨(i, (lookup g (s.drop i) pme).1, (lookup g (s.drop i) pme).2.1) :: Δ,
              ?_, ?_, ?_, ?_⟩
            · rw [hΔ, List.append_assoc]
              rfl
            · intro e he
              rcases List.mem_cons.1 he with hh | hh
              · subst hh
                exact Nat.le_refl i
              · have := hge e hh
                omega
            · intro p
              rw [cnt0_cons_neg _ _ _ (Or.inr hk)]
              exact hcnt p
            · intro _
              rw [cnt0_cons_neg _ _ _ (Or.inr hk)]
              exact cnt0_eq_zero Δ i (fun e he => by have := hge e he; omega)
        · rw [if_neg hlk]
          obtain ⟨Δ, hΔ, hge, hcnt, _⟩ := ih buf (i + 1) last n
            ((lookup g (s.drop i) pme).2.2 && (lookup g (s.drop i) pme).2.1 == 0) tr
          refine ⟨Δ, hΔ, fun e he => by have := hge e he; omega, hcnt, fun _ => ?_⟩
          exact cnt0_eq_zero Δ i (fun e he => by have := hge e he; omega)
    · rw [if_neg hil]
      by_cases hl : last ≠ s.length
      · rw [if_pos hl]
        exact ⟨[], (List.append_nil tr).symm,
          fun e he => absurd he (List.not_mem_nil e),
          fun p => by rw [cnt0_nil]; omega,
          fun _ => cnt0_nil i⟩
      · rw [if_neg hl]
        exact ⟨[], (List.append_nil tr).symm,
          fun e he => absurd he (List.not_mem_nil e),
          fun p => by rw [cnt0_nil]; omega,
          fun _ => cnt0_nil i⟩

/-- C4 (amended): with an empty pattern in the table the scan still
terminates — any fuel beyond the canonical `2·len+4` bound yields the same
run — and an empty match is accepted AT MOST once per input position
(hence never twice consecutively at the same position); it is not always
exactly once, because a longer-or-higher-priority pattern can preempt the
empty match at a position (see the counterexample); `[("","X")]` applied to
`"ab"` yields `"XaXbX"` (bytes: a=97 b=98 X=88). -/
theorem c4_empty_match_progress :
    (∀ (oldnew : List Bytes) (s : Bytes) (fuel : Nat), 2 * s.length + 4 ≤ fuel →
      gWriteLoop (makeGenericReplacer oldnew) bufWr s fuel [] 0 0 0 false [] =
        gWriteT (makeGenericReplacer oldnew) bufWr [] s) ∧
    (∀ (oldnew : List Bytes) (s : Bytes) (p : Nat),
      cnt0 (gWriteTrace (makeGenericReplacer oldnew) s) p ≤ 1) ∧
    ReplaceTop [[], [88]] [97, 98] = some [88, 97, 88, 98, 88] := by
  refine ⟨?_, ?_, by decide⟩
  · intro oldnew s fuel hf
    have heq : fuel = (2 * s.length + 4) + (fuel - (2 * s.length + 4)) := by omega
    rw [heq]
    rw [Nat.add_comm (2 * s.length + 4) (fuel - (2 * s.length + 4))]
    rw [show fuel - (2 * s.length + 4) + (2 * s.length + 4) =
      (2 * s.length + 4) + (fuel - (2 * s.length + 4)) by omega]
    rw [gWriteLoop_fuel_ge (makeGenericReplacer oldnew) s
      (fuel - (2 * s.length + 4)) (2 * s.length + 4) [] 0 0 0 false []
      (by rw [if_neg Bool.false_ne_true]; omega)]
    rfl
  · intro oldnew s p
    obtain ⟨Δ, hΔ, _, hcnt, _⟩ := gWriteLoop_trace_once (makeGenericReplacer oldnew) s
      (2 * s.length + 4) [] 0 0 0 false []
    show cnt0 (gWriteLoop (makeGenericReplacer oldnew) bufWr s
      (2 * s.length + 4) [] 0 0 0 false []).2.2.2 p ≤ 1
    rw [hΔ, List.nil_append]
    exact hcnt p

theorem c4_empty_match_progress_witness :
    (2 * ([97] : Bytes).length + 4 ≤ 7 ∧
      gWriteLoop (makeGenericReplacer [[], [88]]) bufWr [97] 7 [] 0 0 0 false [] =
        gWriteT (makeGenericReplacer [[], [88]]) bufWr [] [97]) ∧
    cnt0 (gWriteTrace (makeGenericReplacer [[], [88]]) [97]) 0 ≤ 1 :=
  ⟨⟨by decide, c4_empty_match_progress.1 [[], [88]] [97] 7 (by decide)⟩,
   c4_empty_match_progress.2.1 [[], [88]] [97] 0⟩
